import Mathlib

/-!
# Exponential backoff (`backoff.go`): model and verification

A shallow embedding of the Go package `backoff`:

* `F64` models the `float64` values the schedule is computed in, with IEEE 754
  round-to-nearest-even multiplication, the `int64 → float64` conversion, the
  `float64 → int64` conversion of `time.Duration(s)`, the comparisons `==`, `<`
  and `math.Min`, all in exact integer arithmetic;
* `options`, `WithMin`, `WithMax`, `WithMultiplier`, `WithTerminate` and
  `Exponential` model the configuration surface;
* `rangeFunc` models the iterator: it is run with a bound on the number of
  loop iterations (`fuel`) and returns the events of the run (calls of the loop
  body, requested waits) together with a flag telling whether the function
  returned within the bound.
-/

namespace backoff

set_option exponentiation.threshold 4096

/-! ## float64 -/

/-- A `float64` value: NaN, an infinity, or the finite value
`(-1)^neg * m * 2^e`.  Values produced by the operations below are in the
canonical form of the binary64 format: `m < 2^53`, `-1074 ≤ e ≤ 971`, and
`2^52 ≤ m` (normal) or `e = -1074` (subnormal and zero). -/
inductive F64 where
  | nan : F64
  | inf (neg : Bool) : F64
  | fin (neg : Bool) (m : Nat) (e : Int) : F64
  deriving DecidableEq

/-- The search behind `log2floor`: the least `j ≥ k` with `m < 2^(j+1)`, looked
for among `k, k+1, …, k+fuel`. -/
def log2floor.go (m : Nat) : Nat → Nat → Nat
  | 0, k => k
  | fuel + 1, k => if m < 2 ^ (k + 1) then k else log2floor.go m fuel (k + 1)

/-- The position of the leading binary digit of `m > 0`: the `k` with
`2^k ≤ m < 2^(k+1)`. -/
def log2floor (m : Nat) : Nat := log2floor.go m m 0

/-- Rounding of the exact value `(-1)^neg * m * 2^e` to binary64, to nearest,
ties to even, overflowing to an infinity and underflowing gradually. -/
def F64.round (neg : Bool) (m : Nat) (e : Int) : F64 :=
  if m = 0 then F64.fin neg 0 (-1074)
  else
    let t : Int := max (e + (log2floor m : Int) - 52) (-1074)
    if t ≤ e then
      if 971 < t then F64.inf neg else F64.fin neg (m * 2 ^ (e - t).toNat) t
    else
      let sh : Nat := (t - e).toNat
      let q : Nat := m / 2 ^ sh
      let r : Nat := m % 2 ^ sh
      let q1 : Nat := if 2 ^ (sh - 1) < r ∨ (r = 2 ^ (sh - 1) ∧ q % 2 = 1) then q + 1 else q
      if q1 = 2 ^ 53 then
        if 971 < t + 1 then F64.inf neg else F64.fin neg (2 ^ 52) (t + 1)
      else if 971 < t then F64.inf neg else F64.fin neg q1 t

/-- The conversion `float64(n)` of an `int64`. -/
def F64.ofInt (n : Int) : F64 := F64.round (decide (n < 0)) n.natAbs 0

/-- The product `x * y` of two `float64`. -/
def F64.mul : F64 → F64 → F64
  | F64.nan, _ => F64.nan
  | _, F64.nan => F64.nan
  | F64.inf a, F64.inf b => F64.inf (xor a b)
  | F64.inf a, F64.fin b m _ => if m = 0 then F64.nan else F64.inf (xor a b)
  | F64.fin a m _, F64.inf b => if m = 0 then F64.nan else F64.inf (xor a b)
  | F64.fin a m1 e1, F64.fin b m2 e2 => F64.round (xor a b) (m1 * m2) (e1 + e2)

/-- The signed numerator of `(-1)^neg * m * 2^e` over the exponent `e0 ≤ e`. -/
def F64.scaled (neg : Bool) (m : Nat) (e e0 : Int) : Int :=
  if neg = true then -((m * 2 ^ (e - e0).toNat : Nat) : Int)
  else ((m * 2 ^ (e - e0).toNat : Nat) : Int)

/-- The comparison `x < y` of two `float64`. -/
def F64.lt : F64 → F64 → Bool
  | F64.nan, _ => false
  | _, F64.nan => false
  | F64.inf a, F64.inf b => a && !b
  | F64.inf a, F64.fin _ _ _ => a
  | F64.fin _ _ _, F64.inf b => !b
  | F64.fin a m1 e1, F64.fin b m2 e2 =>
    decide (F64.scaled a m1 e1 (min e1 e2) < F64.scaled b m2 e2 (min e1 e2))

/-- The comparison `x == y` of two `float64`: NaN equals nothing, the two
zeros are equal. -/
def F64.eq : F64 → F64 → Bool
  | F64.nan, _ => false
  | _, F64.nan => false
  | F64.inf a, F64.inf b => a == b
  | F64.inf _, F64.fin _ _ _ => false
  | F64.fin _ _ _, F64.inf _ => false
  | F64.fin a m1 e1, F64.fin b m2 e2 =>
    decide (F64.scaled a m1 e1 (min e1 e2) = F64.scaled b m2 e2 (min e1 e2))

/-- The comparison `x <= y` of two `float64`. -/
def F64.le (x y : F64) : Bool := F64.lt x y || F64.eq x y

/-- The `float64` 1. -/
def F64.one : F64 := F64.fin false (2 ^ 52) (-52)

/-- The sign bit (`math.Signbit`). -/
def F64.signbit : F64 → Bool
  | F64.nan => false
  | F64.inf a => a
  | F64.fin a _ _ => a

/-- Go's `math.Min`: `-Inf` if either argument is `-Inf`, NaN if either is NaN,
the negative zero among two zeros, else the smaller argument. -/
def math.Min (x y : F64) : F64 :=
  if x = F64.inf true ∨ y = F64.inf true then F64.inf true
  else if x = F64.nan ∨ y = F64.nan then F64.nan
  else if (F64.eq x (F64.fin false 0 (-1074)) && F64.eq x y) = true then
    if F64.signbit x = true then x else y
  else if F64.lt x y = true then x else y

/-- The conversion `time.Duration(s)` of a `float64` to `int64`: truncation
toward zero.  Go leaves the result implementation-dependent when the value is
NaN, infinite or outside the `int64` range: that case is `none`. -/
def F64.toInt64 : F64 → Option Int
  | F64.fin neg m e =>
    let t : Nat := if 0 ≤ e then m * 2 ^ e.toNat else m / 2 ^ (-e).toNat
    let v : Int := if neg = true then -(t : Int) else (t : Int)
    if -(2 : Int) ^ 63 ≤ v ∧ v < (2 : Int) ^ 63 then some v else none
  | _ => none

/-- The rational value of a finite `float64` (0 for NaN and the infinities);
used in statements only. -/
def F64.toRat : F64 → ℚ
  | F64.fin neg m e => (if neg then -(m : ℚ) else (m : ℚ)) * (2 : ℚ) ^ e
  | _ => 0

/-- The canonical `float64` of a natural number below `2^53`. -/
def F64.nat (n : Nat) : F64 :=
  F64.fin false (n * 2 ^ (52 - log2floor n)) ((log2floor n : Int) - 52)

/-! ## Configuration -/

/-- The constant `time.Second`, in nanoseconds (a `time.Duration` is an `int64` count of
nanoseconds, modelled as an `Int`). -/
def Second : Int := 1000000000

/-- The constant `time.Hour`, in nanoseconds. -/
def Hour : Int := 3600 * Second

/-- A `context.Context`, as `rangeFunc` observes it: `done k` tells whether, in
the `select` that follows step `k`, the case `<-o.ctx.Done()` is the one taken
(the context is cancelled and wins the race against the timer). -/
structure Context where
  done : Nat → Bool

/-- The struct `options`. -/
structure options where
  min : Int
  max : Int
  multiplier : F64
  terminate : Bool
  ctx : Context

/-- The option `WithMin` sets the duration of the sleep after the first iteration. -/
def WithMin (min : Int) : options → options :=
  fun o => { o with min := min }

/-- The option `WithMax` sets the maximum sleep duration. -/
def WithMax (max : Int) : options → options :=
  fun o => { o with max := max }

/-- The option `WithMultiplier` sets the factor applied to the sleep duration in every
iteration. -/
def WithMultiplier (multiplier : F64) : options → options :=
  fun o => { o with multiplier := multiplier }

/-- The option `WithTerminate`: the returned function assigns `true`, whatever `t` is. -/
def WithTerminate (_t : Bool) : options → options :=
  fun o => { o with terminate := true }

/-- The loop `for _, opt := range opts { opt(&o) }` of `Exponential`. -/
def applyOpts (o : options) : List (options → options) → options
  | [] => o
  | opt :: rest => applyOpts (opt o) rest

/-- The value of the local variable `o` of `Exponential` when it returns. -/
def Exponential.config (ctx : Context) (opts : List (options → options)) : options :=
  applyOpts ⟨Second, Hour, F64.ofInt 2, false, ctx⟩ opts

/-! ## The iterator -/

/-- What a run of `rangeFunc` does that is visible from outside: a call
`yield(i)` of the loop body, or a call `after(d)` requesting a wait of `d`
nanoseconds (`none`: the duration is the implementation-dependent result of
an out-of-range conversion). -/
inductive Event where
  | step (i : Nat) : Event
  | wait (d : Option Int) : Event
  deriving DecidableEq

/-- The result of running `rangeFunc` for a bounded number of iterations: the
events in order, and whether the function has returned. -/
structure Run where
  events : List Event
  returned : Bool
  deriving DecidableEq

/-- The `for` loop of `rangeFunc`, from the evaluation of its condition
`yield(i)` with the variables `i` and `s`, for at most `fuel` iterations.
`yield i` is the value the loop body returns at step `i` (`true`: continue).
The counter `i` is a Go `int`, modelled as an unbounded natural number. -/
def rangeFunc.loop (o : options) (yield : Nat → Bool) (max : F64) :
    Nat → Nat → F64 → Run
  | 0, _, _ => ⟨[], false⟩
  | fuel + 1, i, s =>
    if yield i = true then
      if o.ctx.done i = true then
        ⟨[Event.step i, Event.wait (F64.toInt64 s)], true⟩
      else if (F64.eq s max && o.terminate) = true then
        ⟨[Event.step i, Event.wait (F64.toInt64 s), Event.step (i + 1)], true⟩
      else
        let r := rangeFunc.loop o yield max fuel (i + 1) (math.Min (F64.mul s o.multiplier) max)
        ⟨Event.step i :: Event.wait (F64.toInt64 s) :: r.events, r.returned⟩
    else ⟨[Event.step i], true⟩

/-- The method `rangeFunc`, run for at most `fuel` iterations of its loop. -/
def rangeFunc (o : options) (yield : Nat → Bool) (fuel : Nat) : Run :=
  rangeFunc.loop o yield (F64.ofInt o.max) fuel 0 (F64.ofInt o.min)

/-- The function `Exponential` returns the method value `o.rangeFunc` of the configuration
it has built. -/
def Exponential (ctx : Context) (opts : List (options → options)) :
    (Nat → Bool) → Nat → Run :=
  rangeFunc (Exponential.config ctx opts)

/-- The memory a run of `rangeFunc` works on: the struct `*o` its receiver
points to, which the iterator returned by `Exponential` shares between all
its runs, and the local variables `s`, `max` and `i` of the run. -/
structure Store where
  o : options
  s : F64
  max : F64
  i : Nat

/-- The struct `o` as a later run finds it: the same fields, the `Done`
channel of its context behaving during that run as the oracle `c` says. -/
def options.during (o : options) (c : Context) : options :=
  ⟨o.min, o.max, o.multiplier, o.terminate, c⟩

/-- The `for` loop of `rangeFunc` as a transformer of the memory, for at most
`fuel` iterations: every read of a field of `*o` is a read of the struct in
the memory, every assignment an update of the memory.  It gives the run and
the memory the run leaves. -/
def rangeFunc.inPlaceLoop (yield : Nat → Bool) : Nat → Store → Run × Store
  | 0, m => (⟨[], false⟩, m)
  | fuel + 1, m =>
    if yield m.i = true then
      if m.o.ctx.done m.i = true then
        (⟨[Event.step m.i, Event.wait (F64.toInt64 m.s)], true⟩, m)
      else if (F64.eq m.s m.max && m.o.terminate) = true then
        (⟨[Event.step m.i, Event.wait (F64.toInt64 m.s), Event.step (m.i + 1)], true⟩, m)
      else
        -- s = math.Min(s*o.multiplier, max)
        let m1 : Store := ⟨m.o, math.Min (F64.mul m.s m.o.multiplier) m.max, m.max, m.i⟩
        -- i++
        let m2 : Store := ⟨m1.o, m1.s, m1.max, m1.i + 1⟩
        let r := rangeFunc.inPlaceLoop yield fuel m2
        (⟨Event.step m.i :: Event.wait (F64.toInt64 m.s) :: r.1.events, r.1.returned⟩, r.2)
    else (⟨[Event.step m.i], true⟩, m)

/-- The method `rangeFunc` called on a pointer to the struct `o`, run for at
most `fuel` iterations: `s := float64(o.min)`, `max := float64(o.max)`,
`i := 0`, then the loop.  It gives the run and the struct as the run leaves
it; the local variables end with the call. -/
def rangeFunc.inPlace (o : options) (yield : Nat → Bool) (fuel : Nat) : Run × options :=
  let m0 : Store := ⟨o, F64.ofInt o.min, F64.ofInt o.max, 0⟩
  let r := rangeFunc.inPlaceLoop yield fuel m0
  (r.1, r.2.o)

/-- The steps of a run: the arguments of the calls of the loop body, in order. -/
def steps : List Event → List Nat
  | [] => []
  | Event.step i :: es => i :: steps es
  | Event.wait _ :: es => steps es

/-- The waits of a run: the durations passed to `after`, in order. -/
def waits : List Event → List (Option Int)
  | [] => []
  | Event.step _ :: es => waits es
  | Event.wait d :: es => d :: waits es

/-- One update of the variable `s` of `rangeFunc`:
`s = math.Min(s*o.multiplier, max)`. -/
def advance (o : options) (s : F64) : F64 :=
  math.Min (F64.mul s o.multiplier) (F64.ofInt o.max)

/-- The value of the variable `s` of `rangeFunc` in the iteration with counter
`i`: `float64(o.min)` updated `i` times. -/
def delay (o : options) (i : Nat) : F64 :=
  (advance o)^[i] (F64.ofInt o.min)

/-- Whether the test `s == max && o.terminate` of `rangeFunc` succeeds in the
iteration with counter `i`. -/
def atCeiling (o : options) (i : Nat) : Bool :=
  F64.eq (delay o i) (F64.ofInt o.max) && o.terminate

/-- The events of `n` consecutive iterations that run to the end of the loop
body, from the counter `i` and the delay `s`: the step, then its wait. -/
def prefixEvents (o : options) : Nat → Nat → F64 → List Event
  | 0, _, _ => []
  | n + 1, i, s =>
    Event.step i :: Event.wait (F64.toInt64 s) :: prefixEvents o n (i + 1) (advance o s)

/-- A context that is never cancelled. -/
def Background : Context := ⟨fun _ => false⟩

/-- A context that is cancelled before the run starts. -/
def Cancelled : Context := ⟨fun _ => true⟩

/-- A configuration with the multiplier 1.5 and a minimum of one nanosecond. -/
def fractionalConfig : options :=
  ⟨1, Hour, F64.fin false (3 * 2 ^ 51) (-52), false, Background⟩

/-- A terminating configuration whose bounds `2^53` and `2^53 + 1` nanoseconds have the
same `float64`. -/
def roundedConfig : options :=
  ⟨2 ^ 53, 2 ^ 53 + 1, F64.ofInt 2, true, Background⟩

/-- A terminating configuration with bounds 3ns and 4ns and the multiplier
`float64(4.0/3.0)`, the `float64` just below 4/3. -/
def thirdsConfig : options :=
  ⟨3, 4, F64.fin false 6004799503160661 (-52), true, Background⟩

/-- A configuration with the multiplier 0.5: min 2ns, max 10ns. -/
def halvingConfig : options :=
  ⟨2, 10, F64.fin false (2 ^ 52) (-53), false, Background⟩

/-- A configuration with min = max = 2^53 + 1 nanoseconds, terminating. -/
def equalRoundedConfig : options :=
  ⟨2 ^ 53 + 1, 2 ^ 53 + 1, F64.ofInt 2, true, Background⟩

/-- A terminating configuration with the multiplier 1 and bounds 2^53 < 2^53 + 1
nanoseconds. -/
def unitRoundedConfig : options :=
  ⟨2 ^ 53, 2 ^ 53 + 1, F64.one, true, Background⟩

/-- A terminating configuration with min = 2^53 + 1 above max = 2^53 nanoseconds. -/
def invertedRoundedConfig : options :=
  ⟨2 ^ 53 + 1, 2 ^ 53, F64.ofInt 2, true, Background⟩

/-- A configuration whose ceiling, 2^63 - 1 ns, is converted to the `float64` 2^63. -/
def hugeConfig : options :=
  ⟨2 ^ 62, 2 ^ 63 - 1, F64.ofInt 2, false, Background⟩

/-- The configuration of `ExampleExponential`. -/
def exampleConfig : options :=
  Exponential.config Background
    [WithMultiplier (F64.ofInt 2), WithMin Second, WithMax Hour, WithTerminate false]

/-! ## Exact float64 arithmetic on integers below 2^53 -/

/-- The search returns the position of the leading digit when the bound suffices. -/
theorem log2floor.go_spec (m : Nat) : ∀ fuel k : Nat, 2 ^ k ≤ m → m < 2 ^ (k + fuel + 1) →
    2 ^ log2floor.go m fuel k ≤ m ∧ m < 2 ^ (log2floor.go m fuel k + 1) := by
  intro fuel
  induction fuel with
  | zero => intro k h1 h2; exact ⟨h1, h2⟩
  | succ fuel ih =>
    intro k h1 h2
    rw [log2floor.go]
    split_ifs with h
    · exact ⟨h1, h⟩
    · exact ih (k + 1) (Nat.le_of_not_lt h) (by rwa [show k + 1 + fuel + 1 = k + (fuel + 1) + 1 by omega])

/-- The value `log2floor m` is the position of the leading binary digit of `m > 0`. -/
theorem log2floor_spec (m : Nat) (hm : 0 < m) :
    2 ^ log2floor m ≤ m ∧ m < 2 ^ (log2floor m + 1) := by
  refine log2floor.go_spec m m 0 (by simpa using hm) ?_
  calc m < 2 ^ m := Nat.lt_two_pow m
    _ ≤ 2 ^ (0 + m + 1) := Nat.pow_le_pow_right (by norm_num) (by omega)

/-- The position of the leading binary digit is determined by its two bounds. -/
theorem log2floor_unique (m k : Nat) (h1 : 2 ^ k ≤ m) (h2 : m < 2 ^ (k + 1)) :
    log2floor m = k := by
  have hm : 0 < m := lt_of_lt_of_le (by positivity) h1
  obtain ⟨g1, g2⟩ := log2floor_spec m hm
  have a : log2floor m < k + 1 := (Nat.pow_lt_pow_iff_right (by norm_num : 1 < 2)).mp (lt_of_le_of_lt g1 h2)
  have b : k < log2floor m + 1 := (Nat.pow_lt_pow_iff_right (by norm_num : 1 < 2)).mp (lt_of_le_of_lt h1 g2)
  omega

/-- Shifting left by `k` digits moves the leading digit by `k`. -/
theorem log2floor_mul_pow (n k : Nat) (hn : 0 < n) :
    log2floor (n * 2 ^ k) = log2floor n + k := by
  obtain ⟨g1, g2⟩ := log2floor_spec n hn
  apply log2floor_unique
  · rw [pow_add]; exact Nat.mul_le_mul_right _ g1
  · rw [show log2floor n + k + 1 = (log2floor n + 1) + k by omega, pow_add]
    exact Nat.mul_lt_mul_of_pos_right g2 (by positivity)

/-- A number below `2^53` has its leading digit at position 52 at most. -/
theorem log2floor_le (n : Nat) (hn : 0 < n) (hlt : n < 2 ^ 53) : log2floor n ≤ 52 := by
  obtain ⟨g1, _⟩ := log2floor_spec n hn
  have : log2floor n < 53 := (Nat.pow_lt_pow_iff_right (by norm_num : 1 < 2)).mp (lt_of_le_of_lt g1 hlt)
  omega

/-- Rounding is exact on a natural number below `2^53`, however it is scaled: the
result is its canonical form. -/
theorem F64.round_nat_scaled (neg : Bool) (n k : Nat) (hn : 0 < n) (hlt : n < 2 ^ 53) :
    F64.round neg (n * 2 ^ k) (-(k : Int))
      = F64.fin neg (n * 2 ^ (52 - log2floor n)) ((log2floor n : Int) - 52) := by
  have hL := log2floor_le n hn hlt
  obtain ⟨g1, g2⟩ := log2floor_spec n hn
  have hm : n * 2 ^ k ≠ 0 := by positivity
  have hlog := log2floor_mul_pow n k hn
  have ht : max (-(k : Int) + ((log2floor (n * 2 ^ k) : Nat) : Int) - 52) (-1074)
      = (log2floor n : Int) - 52 := by
    rw [hlog]; push_cast
    rw [max_eq_left (by omega)]; omega
  have hq : n * 2 ^ (52 - log2floor n) < 2 ^ 53 := by
    calc n * 2 ^ (52 - log2floor n) < 2 ^ (log2floor n + 1) * 2 ^ (52 - log2floor n) :=
          Nat.mul_lt_mul_of_pos_right g2 (by positivity)
      _ = 2 ^ 53 := by rw [← pow_add]; congr 1; omega
  unfold F64.round
  simp only [hm, if_false, ht]
  by_cases hk : k ≤ 52 - log2floor n
  · have h1 : (log2floor n : Int) - 52 ≤ -(k : Int) := by omega
    have h2 : ¬ (971 : Int) < (log2floor n : Int) - 52 := by omega
    have h3 : (-(k : Int) - ((log2floor n : Int) - 52)).toNat = 52 - log2floor n - k := by omega
    simp only [h1, if_true, h2, if_false, h3]
    congr 1
    rw [Nat.mul_assoc, ← pow_add]
    congr 2; omega
  · have h1 : ¬ (log2floor n : Int) - 52 ≤ -(k : Int) := by omega
    have h2 : ¬ (971 : Int) < (log2floor n : Int) - 52 := by omega
    obtain ⟨sh, hsh⟩ : ∃ sh, k = (52 - log2floor n) + (sh + 1) := ⟨k - (52 - log2floor n) - 1, by omega⟩
    have h3 : ((log2floor n : Int) - 52 - -(k : Int)).toNat = sh + 1 := by omega
    have hsplit : n * 2 ^ k = (n * 2 ^ (52 - log2floor n)) * 2 ^ (sh + 1) := by
      rw [hsh, pow_add, Nat.mul_assoc]
    have hdiv : n * 2 ^ k / 2 ^ (sh + 1) = n * 2 ^ (52 - log2floor n) := by
      rw [hsplit]; exact Nat.mul_div_cancel _ (by positivity)
    have hmod : n * 2 ^ k % 2 ^ (sh + 1) = 0 := by
      rw [hsplit]; exact Nat.mul_mod_left _ _
    have hpos : 0 < 2 ^ (sh + 1 - 1) := by positivity
    simp only [h1, if_false, h2, h3, hdiv, hmod]
    have hc : ¬ (2 ^ (sh + 1 - 1) < 0 ∨ (0 = 2 ^ (sh + 1 - 1) ∧ n * 2 ^ (52 - log2floor n) % 2 = 1)) := by
      rintro (h | ⟨h, _⟩) <;> omega
    simp only [hc, if_false, Nat.ne_of_lt hq]

/-- The conversion `float64(n)` is exact for `0 < n < 2^53`. -/
theorem F64.ofInt_nat (n : Nat) (hn : 0 < n) (hlt : n < 2 ^ 53) :
    F64.ofInt (n : Int) = F64.nat n := by
  have h := F64.round_nat_scaled false n 0 hn hlt
  have hneg : decide ((n : Int) < 0) = false := by simp
  simpa [F64.ofInt, F64.nat, hneg] using h

/-- The product of two positive integers is exact when it is below `2^53`. -/
theorem F64.mul_nat (a b : Nat) (ha : 0 < a) (hb : 0 < b) (hlt : a * b < 2 ^ 53) :
    F64.mul (F64.nat a) (F64.nat b) = F64.nat (a * b) := by
  have hab : 0 < a * b := Nat.mul_pos ha hb
  have ha53 : a < 2 ^ 53 := lt_of_le_of_lt (Nat.le_mul_of_pos_right a hb) hlt
  have hb53 : b < 2 ^ 53 := lt_of_le_of_lt (Nat.le_mul_of_pos_left b ha) hlt
  have hLa := log2floor_le a ha ha53
  have hLb := log2floor_le b hb hb53
  have h := F64.round_nat_scaled false (a * b) ((52 - log2floor a) + (52 - log2floor b)) hab hlt
  have hm : a * 2 ^ (52 - log2floor a) * (b * 2 ^ (52 - log2floor b))
      = a * b * 2 ^ ((52 - log2floor a) + (52 - log2floor b)) := by
    rw [pow_add]; ring
  have he : ((log2floor a : Int) - 52) + ((log2floor b : Int) - 52)
      = -(((52 - log2floor a) + (52 - log2floor b) : Nat) : Int) := by
    omega
  simp only [F64.nat, F64.mul, Bool.xor_false, hm, he]
  exact h

/-- The numerator of the `float64` of `a` over a common exponent `e0`. -/
theorem F64.scaled_nat (a : Nat) (e0 : Int) (ha : 0 < a) (hlt : a < 2 ^ 53)
    (he : e0 ≤ (log2floor a : Int) - 52) :
    F64.scaled false (a * 2 ^ (52 - log2floor a)) ((log2floor a : Int) - 52) e0
      = ((a * 2 ^ (-e0).toNat : Nat) : Int) := by
  have hLa := log2floor_le a ha hlt
  have h1 : (((log2floor a : Int) - 52) - e0).toNat = (-e0).toNat - (52 - log2floor a) := by omega
  have h2 : (-e0).toNat = (52 - log2floor a) + ((-e0).toNat - (52 - log2floor a)) := by omega
  simp only [F64.scaled, Bool.false_eq_true, if_false, h1]
  congr 1
  rw [Nat.mul_assoc, ← pow_add, ← h2]

/-- On integers below `2^53` the comparison `<` of `float64` is the comparison of
the integers. -/
theorem F64.lt_nat (a b : Nat) (ha : 0 < a) (hb : 0 < b) (ha53 : a < 2 ^ 53) (hb53 : b < 2 ^ 53) :
    F64.lt (F64.nat a) (F64.nat b) = decide (a < b) := by
  simp only [F64.nat, F64.lt]
  rw [F64.scaled_nat a _ ha ha53 (min_le_left _ _), F64.scaled_nat b _ hb hb53 (min_le_right _ _)]
  have hpos : 0 < 2 ^ (-min ((log2floor a : Int) - 52) ((log2floor b : Int) - 52)).toNat :=
    by positivity
  simp only [Nat.cast_lt, Nat.mul_lt_mul_right hpos]

/-- On integers below `2^53` the comparison `==` of `float64` is equality of the
integers. -/
theorem F64.eq_nat (a b : Nat) (ha : 0 < a) (hb : 0 < b) (ha53 : a < 2 ^ 53) (hb53 : b < 2 ^ 53) :
    F64.eq (F64.nat a) (F64.nat b) = decide (a = b) := by
  simp only [F64.nat, F64.eq]
  rw [F64.scaled_nat a _ ha ha53 (min_le_left _ _), F64.scaled_nat b _ hb hb53 (min_le_right _ _)]
  have hpos : 0 < 2 ^ (-min ((log2floor a : Int) - 52) ((log2floor b : Int) - 52)).toNat :=
    by positivity
  simp only [Nat.cast_inj, Nat.mul_left_inj (Nat.ne_of_gt hpos)]

/-- The `float64` of a positive integer is not `== 0`. -/
theorem F64.nat_ne_zero (a : Nat) (ha : 0 < a) :
    F64.eq (F64.nat a) (F64.fin false 0 (-1074)) = false := by
  simp only [F64.nat, F64.eq, F64.scaled, Bool.false_eq_true, if_false, Nat.zero_mul,
    decide_eq_false_iff_not]
  have : 0 < a * 2 ^ (52 - log2floor a)
      * 2 ^ ((log2floor a : Int) - 52 - min ((log2floor a : Int) - 52) (-1074)).toNat := by
    positivity
  intro h
  have h2 := Nat.cast_injective (R := Int) h
  omega

/-- On positive integers below `2^53`, `math.Min` is the minimum of the integers. -/
theorem math.Min_nat (a b : Nat) (ha : 0 < a) (hb : 0 < b) (ha53 : a < 2 ^ 53)
    (hb53 : b < 2 ^ 53) : math.Min (F64.nat a) (F64.nat b) = F64.nat (min a b) := by
  have h1 : ¬ (F64.nat a = F64.inf true ∨ F64.nat b = F64.inf true) := by
    simp [F64.nat]
  have h2 : ¬ (F64.nat a = F64.nan ∨ F64.nat b = F64.nan) := by
    simp [F64.nat]
  unfold math.Min
  simp only [h1, h2, if_false, F64.nat_ne_zero a ha, Bool.false_and, Bool.false_eq_true,
    F64.lt_nat a b ha hb ha53 hb53, decide_eq_true_eq]
  by_cases h : a < b
  · simp [h, min_eq_left (le_of_lt h)]
  · simp [h, min_eq_right (not_lt.mp h)]

/-- Converting the `float64` of an integer below `2^53` back gives the integer. -/
theorem F64.toInt64_nat (a : Nat) (ha : 0 < a) (ha53 : a < 2 ^ 53) :
    F64.toInt64 (F64.nat a) = some (a : Int) := by
  have hLa := log2floor_le a ha ha53
  have hdiv : a * 2 ^ (52 - log2floor a) / 2 ^ (52 - log2floor a) = a :=
    Nat.mul_div_cancel _ (by positivity)
  have hrange : -(2 : Int) ^ 63 ≤ (a : Int) ∧ (a : Int) < (2 : Int) ^ 63 := by
    constructor
    · have : (0 : Int) ≤ (a : Int) := Int.ofNat_nonneg a
      have h2 : -(2 : Int) ^ 63 ≤ 0 := by norm_num
      omega
    · have : (a : Int) < ((2 ^ 53 : Nat) : Int) := by exact_mod_cast ha53
      have h2 : ((2 ^ 53 : Nat) : Int) < (2 : Int) ^ 63 := by norm_num
      omega
  have ht : (if (0 : Int) ≤ (log2floor a : Int) - 52
        then a * 2 ^ (52 - log2floor a) * 2 ^ ((log2floor a : Int) - 52).toNat
        else a * 2 ^ (52 - log2floor a) / 2 ^ (-((log2floor a : Int) - 52)).toNat) = a := by
    by_cases h : (0 : Int) ≤ (log2floor a : Int) - 52
    · have hL : log2floor a = 52 := by omega
      rw [if_pos h, hL]
      simp
    · have h3 : (-((log2floor a : Int) - 52)).toNat = 52 - log2floor a := by omega
      rw [if_neg h, h3, hdiv]
  simp only [F64.nat, F64.toInt64, Bool.false_eq_true, if_false, ht, hrange, and_self, if_true]

/-- Rounding a value of at least `2^53`, given as `M * 2^(-k)`, yields `+Inf` or
a finite value with mantissa at least `2^52` and a positive exponent. -/
theorem F64.round_large (M k : Nat) (hM : 2 ^ (53 + k) ≤ M) :
    F64.round false M (-(k : Int)) = F64.inf false
      ∨ ∃ q : Nat, ∃ t : Int, F64.round false M (-(k : Int)) = F64.fin false q t
          ∧ 2 ^ 52 ≤ q ∧ 1 ≤ t := by
  have hpos : 0 < M := lt_of_lt_of_le (by positivity) hM
  have hm : M ≠ 0 := Nat.ne_of_gt hpos
  obtain ⟨g1, g2⟩ := log2floor_spec M hpos
  have hL : 53 + k ≤ log2floor M := by
    have : 53 + k < log2floor M + 1 :=
      (Nat.pow_lt_pow_iff_right (by norm_num : 1 < 2)).mp (lt_of_le_of_lt hM g2)
    omega
  obtain ⟨sh, hsh⟩ : ∃ sh, log2floor M = 52 + k + (sh + 1) := ⟨log2floor M - 52 - k - 1, by omega⟩
  have ht : max (-(k : Int) + (log2floor M : Int) - 52) (-1074) = (sh : Int) + 1 := by
    rw [hsh]; push_cast
    rw [max_eq_left (by omega)]; omega
  have h1 : ¬ ((sh : Int) + 1 ≤ -(k : Int)) := by omega
  have h3 : ((sh : Int) + 1 - -(k : Int)).toNat = sh + 1 + k := by omega
  have hq : 2 ^ 52 ≤ M / 2 ^ (sh + 1 + k) := by
    rw [Nat.le_div_iff_mul_le (by positivity), ← pow_add]
    have : 52 + (sh + 1 + k) = log2floor M := by omega
    rw [this]; exact g1
  unfold F64.round
  simp only [hm, if_false, ht, h1, h3]
  split_ifs
  · exact Or.inl rfl
  · exact Or.inr ⟨2 ^ 52, (sh : Int) + 1 + 1, rfl, le_refl _, by omega⟩
  · exact Or.inl rfl
  · exact Or.inr ⟨_, (sh : Int) + 1, rfl, by omega, by omega⟩
  · exact Or.inl rfl
  · exact Or.inr ⟨2 ^ 52, (sh : Int) + 1 + 1, rfl, le_refl _, by omega⟩
  · exact Or.inl rfl
  · exact Or.inr ⟨_, (sh : Int) + 1, rfl, hq, by omega⟩

/-- The `math.Min` of a value of at least `2^53` and the `float64` of an integer
below `2^53` is the latter. -/
theorem math.Min_large (x : F64) (b : Nat) (hb : 0 < b) (hb53 : b < 2 ^ 53)
    (hx : x = F64.inf false ∨ ∃ q : Nat, ∃ t : Int, x = F64.fin false q t ∧ 2 ^ 52 ≤ q ∧ 1 ≤ t) :
    math.Min x (F64.nat b) = F64.nat b := by
  have hLb := log2floor_le b hb hb53
  obtain ⟨g1, g2⟩ := log2floor_spec b hb
  have hB : b * 2 ^ (52 - log2floor b) < 2 ^ 53 := by
    calc b * 2 ^ (52 - log2floor b) < 2 ^ (log2floor b + 1) * 2 ^ (52 - log2floor b) :=
          Nat.mul_lt_mul_of_pos_right g2 (by positivity)
      _ = 2 ^ 53 := by rw [← pow_add]; congr 1; omega
  rcases hx with rfl | ⟨q, t, rfl, hq, ht⟩
  · simp [math.Min, F64.nat, F64.eq, F64.lt]
  · have hmin : min t ((log2floor b : Int) - 52) = (log2floor b : Int) - 52 :=
      min_eq_right (by omega)
    have hz : F64.eq (F64.fin false q t) (F64.fin false 0 (-1074)) = false := by
      simp only [F64.eq, F64.scaled, Bool.false_eq_true, if_false, Nat.zero_mul,
        decide_eq_false_iff_not]
      have : 0 < q * 2 ^ (t - min t (-1074)).toNat := by positivity
      intro h
      have h2 := Nat.cast_injective (R := Int) h
      omega
    have hlt : F64.lt (F64.fin false q t) (F64.nat b) = false := by
      simp only [F64.nat, F64.lt, F64.scaled, Bool.false_eq_true, if_false, hmin, sub_self,
        Int.toNat_zero, pow_zero, Nat.mul_one, decide_eq_false_iff_not, Nat.cast_lt, not_lt]
      obtain ⟨d, hd⟩ : ∃ d, (t - ((log2floor b : Int) - 52)).toNat = d + 1 :=
        ⟨(t - ((log2floor b : Int) - 52)).toNat - 1, by omega⟩
      rw [hd, pow_succ]
      have hd1 : 1 ≤ 2 ^ d := Nat.one_le_two_pow
      calc b * 2 ^ (52 - log2floor b) ≤ 2 ^ 52 * (1 * 2) := by omega
        _ ≤ q * (2 ^ d * 2) :=
          Nat.mul_le_mul hq (Nat.mul_le_mul_right 2 hd1)
    have h1 : ¬ (F64.fin false q t = F64.inf true ∨ F64.nat b = F64.inf true) := by
      simp [F64.nat]
    have h2 : ¬ (F64.fin false q t = F64.nan ∨ F64.nat b = F64.nan) := by
      simp [F64.nat]
    unfold math.Min
    simp only [h1, h2, if_false, hz, Bool.false_and, Bool.false_eq_true, hlt]

/-- The product of two positive integers below `2^53` whose product is at least `2^53`
is, after rounding, still at least `2^53`. -/
theorem F64.mul_nat_large (a b : Nat) (ha : 0 < a) (hb : 0 < b) (ha53 : a < 2 ^ 53)
    (hb53 : b < 2 ^ 53) (hge : 2 ^ 53 ≤ a * b) :
    F64.mul (F64.nat a) (F64.nat b) = F64.inf false
      ∨ ∃ q : Nat, ∃ t : Int, F64.mul (F64.nat a) (F64.nat b) = F64.fin false q t
          ∧ 2 ^ 52 ≤ q ∧ 1 ≤ t := by
  have hLa := log2floor_le a ha ha53
  have hLb := log2floor_le b hb hb53
  have hm : a * 2 ^ (52 - log2floor a) * (b * 2 ^ (52 - log2floor b))
      = a * b * 2 ^ ((52 - log2floor a) + (52 - log2floor b)) := by
    rw [pow_add]; ring
  have he : ((log2floor a : Int) - 52) + ((log2floor b : Int) - 52)
      = -(((52 - log2floor a) + (52 - log2floor b) : Nat) : Int) := by
    omega
  have hM : 2 ^ (53 + ((52 - log2floor a) + (52 - log2floor b)))
      ≤ a * b * 2 ^ ((52 - log2floor a) + (52 - log2floor b)) := by
    rw [pow_add]; exact Nat.mul_le_mul_right _ hge
  have h := F64.round_large _ _ hM
  simp only [F64.nat, F64.mul, Bool.xor_false, hm, he]
  exact h

/-! ## The configuration surface -/

/-- C3: `Exponential` called with a context and no options builds the
configuration min = 1 second, max = 1 hour, multiplier = 2, terminate = false,
ctx = the given context (durations in nanoseconds, the multiplier the
`float64` of value 2), and returns the iterator of that configuration. -/
theorem Exponential_defaults (ctx : Context) :
    Exponential.config ctx [] = ⟨1000000000, 3600000000000, F64.fin false (2 ^ 52) (-51), false, ctx⟩
      ∧ F64.toRat (Exponential.config ctx []).multiplier = 2
      ∧ Exponential ctx [] = rangeFunc ⟨Second, Hour, F64.ofInt 2, false, ctx⟩ := by
  refine ⟨?_, ?_, rfl⟩
  · have h2 : F64.ofInt 2 = F64.fin false (2 ^ 52) (-51) := by decide
    simp [Exponential.config, applyOpts, h2, Second, Hour]
  · have h2 : F64.ofInt 2 = F64.fin false (2 ^ 52) (-51) := by decide
    simp only [Exponential.config, applyOpts, h2, F64.toRat]
    norm_num

/-- C4: for every boolean argument `t` and every configuration, the option
`WithTerminate t` leaves the configuration with terminate = true (and the
other fields as they were). -/
theorem WithTerminate_always_true (t : Bool) (o : options) :
    (WithTerminate t o).terminate = true
      ∧ WithTerminate t o = ⟨o.min, o.max, o.multiplier, true, o.ctx⟩ :=
  ⟨rfl, rfl⟩

/-- Running the option loop over a list is the left fold of the list. -/
theorem applyOpts_eq_foldl (opts : List (options → options)) (o : options) :
    applyOpts o opts = opts.foldl (fun c opt => opt c) o := by
  induction opts generalizing o with
  | nil => rfl
  | cons opt rest ih => simp [applyOpts, ih]

/-- The option loop over `opts ++ [opt]` applies `opt` last. -/
theorem applyOpts_append_one (opts : List (options → options)) (opt : options → options)
    (o : options) : applyOpts o (opts ++ [opt]) = opt (applyOpts o opts) := by
  simp [applyOpts_eq_foldl]

/-- C9: `Exponential` applies its options to the default configuration in the
order given: the configuration is the left fold of the option list over the
defaults, an option applied last decides its field whatever came before, and
in particular of two `WithMin` (`WithMax`, `WithMultiplier`) the later wins. -/
theorem Exponential_options_in_order (ctx : Context) :
    (∀ opts : List (options → options),
        Exponential.config ctx opts
          = opts.foldl (fun c opt => opt c) ⟨Second, Hour, F64.ofInt 2, false, ctx⟩)
      ∧ (∀ (opts : List (options → options)) (d : Int),
          (Exponential.config ctx (opts ++ [WithMin d])).min = d
            ∧ (Exponential.config ctx (opts ++ [WithMax d])).max = d)
      ∧ (∀ (opts : List (options → options)) (m : F64),
          (Exponential.config ctx (opts ++ [WithMultiplier m])).multiplier = m)
      ∧ (∀ d1 d2 : Int,
          (Exponential.config ctx [WithMin d1, WithMin d2]).min = d2
            ∧ (Exponential.config ctx [WithMax d1, WithMax d2]).max = d2)
      ∧ (∀ m1 m2 : F64,
          (Exponential.config ctx [WithMultiplier m1, WithMultiplier m2]).multiplier = m2) := by
  refine ⟨fun opts => applyOpts_eq_foldl opts _, ?_, ?_, ?_, ?_⟩
  · intro opts d
    constructor <;> simp only [Exponential.config, applyOpts_append_one] <;> rfl
  · intro opts m
    simp only [Exponential.config, applyOpts_append_one]
    rfl
  · intro d1 d2
    exact ⟨rfl, rfl⟩
  · intro m1 m2
    rfl

/-- C10: each of `WithMin d`, `WithMax d` and `WithMultiplier m` sets its own
field to the argument and leaves every other field (terminate and ctx
included) as it was, for every argument value. -/
theorem With_options_frame (o : options) (d : Int) (m : F64) :
    WithMin d o = ⟨d, o.max, o.multiplier, o.terminate, o.ctx⟩
      ∧ WithMax d o = ⟨o.min, d, o.multiplier, o.terminate, o.ctx⟩
      ∧ WithMultiplier m o = ⟨o.min, o.max, m, o.terminate, o.ctx⟩ :=
  ⟨rfl, rfl, rfl⟩

/-! ## Runs of the iterator -/

/-- The steps of two event lists in sequence. -/
theorem steps_append (a b : List Event) : steps (a ++ b) = steps a ++ steps b := by
  induction a with
  | nil => rfl
  | cons e es ih => cases e <;> simp [steps, ih]

/-- The waits of two event lists in sequence. -/
theorem waits_append (a b : List Event) : waits (a ++ b) = waits a ++ waits b := by
  induction a with
  | nil => rfl
  | cons e es ih => cases e <;> simp [waits, ih]

/-- The steps of `n` full iterations from the counter `i` are `i, …, i+n-1`. -/
theorem steps_prefixEvents (o : options) (n i : Nat) (s : F64) :
    steps (prefixEvents o n i s) = List.range' i n := by
  induction n generalizing i s with
  | zero => rfl
  | succ n ih => simp [prefixEvents, steps, ih, List.range']

/-- The waits of `n` full iterations are the successive delays, converted to
durations. -/
theorem waits_prefixEvents (o : options) (n i : Nat) (s : F64) :
    waits (prefixEvents o n i s)
      = (List.range n).map (fun j => F64.toInt64 ((advance o)^[j] s)) := by
  induction n generalizing i s with
  | zero => rfl
  | succ n ih =>
    simp only [prefixEvents, waits, ih, List.range_succ_eq_map, List.map_cons, List.map_map,
      Function.iterate_zero, id_eq]
    rfl

/-- While the body continues, no cancellation wins and the terminating test
fails, the loop runs one iteration after the other: `n` such iterations
produce `prefixEvents` and leave the loop at counter `i + n`. -/
theorem loop_prefix (o : options) (yield : Nat → Bool) (n fuel i : Nat) (s : F64)
    (h : ∀ j, j < n → yield (i + j) = true ∧ o.ctx.done (i + j) = false
      ∧ (F64.eq ((advance o)^[j] s) (F64.ofInt o.max) && o.terminate) = false) :
    rangeFunc.loop o yield (F64.ofInt o.max) (n + fuel) i s
      = ⟨prefixEvents o n i s
          ++ (rangeFunc.loop o yield (F64.ofInt o.max) fuel (i + n) ((advance o)^[n] s)).events,
         (rangeFunc.loop o yield (F64.ofInt o.max) fuel (i + n) ((advance o)^[n] s)).returned⟩ := by
  induction n generalizing i s with
  | zero => simp [prefixEvents]
  | succ n ih =>
    obtain ⟨hy, hc, ht⟩ := h 0 (Nat.succ_pos n)
    have hstep : ∀ j, j < n → yield (i + 1 + j) = true ∧ o.ctx.done (i + 1 + j) = false
        ∧ (F64.eq ((advance o)^[j] (advance o s)) (F64.ofInt o.max) && o.terminate) = false := by
      intro j hj
      have := h (j + 1) (Nat.succ_lt_succ hj)
      simpa [Nat.add_assoc, Nat.add_comm 1 j, Function.iterate_succ_apply] using this
    have hrec := ih (i + 1) (advance o s) hstep
    have hfuel : n + 1 + fuel = (n + fuel) + 1 := by omega
    simp only [Nat.add_zero, Function.iterate_zero, id_eq] at hy hc ht
    rw [hfuel, rangeFunc.loop]
    simp only [hy, hc, ht, if_true, Bool.false_eq_true, if_false]
    have hadv : math.Min (F64.mul s o.multiplier) (F64.ofInt o.max) = advance o s := rfl
    rw [hadv, hrec]
    simp [prefixEvents, Function.iterate_succ_apply, Nat.add_assoc, Nat.add_comm 1 n]

/-- The run of `rangeFunc` up to the iteration with counter `n`. -/
theorem rangeFunc_prefix (o : options) (yield : Nat → Bool) (n fuel : Nat)
    (hy : ∀ j, j < n → yield j = true) (hc : ∀ j, j < n → o.ctx.done j = false)
    (ht : ∀ j, j < n → atCeiling o j = false) :
    rangeFunc o yield (n + fuel)
      = ⟨prefixEvents o n 0 (F64.ofInt o.min)
          ++ (rangeFunc.loop o yield (F64.ofInt o.max) fuel n (delay o n)).events,
         (rangeFunc.loop o yield (F64.ofInt o.max) fuel n (delay o n)).returned⟩ := by
  have h := loop_prefix o yield n fuel 0 (F64.ofInt o.min) (fun j hj => by
    rw [Nat.zero_add]
    exact ⟨hy j hj, hc j hj, ht j hj⟩)
  simpa [rangeFunc, delay] using h

/-- If the loop, started at the counter `i` with the delay `s`, requests more
than `n` waits, its first `n` iterations ran through (body continued, no
cancellation won, terminating test failed), the body continued at `i + n`, and
the bound allowed more than `n` iterations. -/
theorem loop_wait_requested (o : options) (yield : Nat → Bool) (fuel i : Nat) (s : F64)
    (n : Nat)
    (h : n < (waits (rangeFunc.loop o yield (F64.ofInt o.max) fuel i s).events).length) :
    (∀ j, j ≤ n → yield (i + j) = true)
      ∧ (∀ j, j < n → o.ctx.done (i + j) = false
          ∧ (F64.eq ((advance o)^[j] s) (F64.ofInt o.max) && o.terminate) = false)
      ∧ n < fuel := by
  induction fuel generalizing i s n with
  | zero => simp [rangeFunc.loop, waits] at h
  | succ fuel ih =>
    rw [rangeFunc.loop] at h
    by_cases hy : yield i = true
    · by_cases hc : o.ctx.done i = true
      · simp only [hy, hc, if_true, waits, List.length_cons, List.length_nil] at h
        have hn : n = 0 := by omega
        subst hn
        exact ⟨fun j hj => by rw [Nat.le_zero.mp hj]; exact hy, fun j hj => by omega, by omega⟩
      · by_cases ht : (F64.eq s (F64.ofInt o.max) && o.terminate) = true
        · simp only [hy, hc, ht, if_true, Bool.false_eq_true, if_false, waits,
            List.length_cons, List.length_nil] at h
          have hn : n = 0 := by omega
          subst hn
          exact ⟨fun j hj => by rw [Nat.le_zero.mp hj]; exact hy, fun j hj => by omega,
            by omega⟩
        · simp only [hy, hc, ht, if_true, Bool.false_eq_true, if_false, waits,
            List.length_cons] at h
          cases n with
          | zero =>
            exact ⟨fun j hj => by rw [Nat.le_zero.mp hj]; exact hy, fun j hj => by omega,
              by omega⟩
          | succ n =>
            have hrec := ih (i + 1) (math.Min (F64.mul s o.multiplier) (F64.ofInt o.max)) n
              (by omega)
            obtain ⟨r1, r2, r3⟩ := hrec
            refine ⟨?_, ?_, by omega⟩
            · intro j hj
              cases j with
              | zero => exact hy
              | succ j =>
                have := r1 j (by omega)
                rwa [show i + 1 + j = i + (j + 1) by omega] at this
            · intro j hj
              cases j with
              | zero =>
                exact ⟨by simpa using hc, by simpa using ht⟩
              | succ j =>
                have := r2 j (by omega)
                rw [show i + 1 + j = i + (j + 1) by omega] at this
                simpa [Function.iterate_succ_apply, advance] using this
    · simp only [hy, Bool.false_eq_true, if_false, waits, List.length_nil] at h
      omega

/-- A run requests more than `n` waits only if the body continued on the steps
`0..n`, no cancellation won and no terminating ceiling was met before the wait
after step `n`, and the bound allowed more than `n` iterations. -/
theorem rangeFunc_wait_requested (o : options) (yield : Nat → Bool) (fuel n : Nat)
    (h : n < (waits (rangeFunc o yield fuel).events).length) :
    (∀ j, j ≤ n → yield j = true) ∧ (∀ j, j < n → o.ctx.done j = false)
      ∧ (∀ j, j < n → atCeiling o j = false) ∧ n < fuel := by
  obtain ⟨r1, r2, r3⟩ := loop_wait_requested o yield fuel 0 (F64.ofInt o.min) n h
  refine ⟨fun j hj => by simpa using r1 j hj, fun j hj => by simpa using (r2 j hj).1,
    fun j hj => ?_, r3⟩
  exact (r2 j hj).2

/-! ## Cancellation and stop -/

/-- C6, as stated, fails: with the default configuration, a context that is
cancelled before the run starts and a body that continues, the loop body is
called once (step 0) before the cancellation is observed. -/
theorem cancelled_before_start_counterexample :
    rangeFunc (Exponential.config Cancelled []) (fun _ => true) 1
        = ⟨[Event.step 0, Event.wait (some 1000000000)], true⟩
      ∧ steps (rangeFunc (Exponential.config Cancelled []) (fun _ => true) 1).events ≠ [] := by
  decide

/-- C6, amended: when the context is already cancelled as the run starts (the
first `select` takes the `Done` case), `rangeFunc` calls the loop body exactly
once, with step 0, requests the first wait if the body continues, and returns
without producing another step. -/
theorem cancelled_before_start (o : options) (yield : Nat → Bool) (fuel : Nat)
    (hc : o.ctx.done 0 = true) :
    (rangeFunc o yield (fuel + 1)).returned = true
      ∧ steps (rangeFunc o yield (fuel + 1)).events = [0]
      ∧ (rangeFunc o yield (fuel + 1)).events
          = if yield 0 = true then [Event.step 0, Event.wait (F64.toInt64 (F64.ofInt o.min))]
            else [Event.step 0] := by
  unfold rangeFunc
  rw [rangeFunc.loop]
  by_cases hy : yield 0 = true <;> simp [hy, hc, steps]

/-- C6, amended, at the default configuration with terminate, and a context
cancelled from the start. -/
theorem cancelled_before_start_witness :
    (rangeFunc (Exponential.config Cancelled [WithTerminate true]) (fun _ => true) 8).returned
        = true
      ∧ steps (rangeFunc (Exponential.config Cancelled [WithTerminate true])
          (fun _ => true) 8).events = [0]
      ∧ (rangeFunc (Exponential.config Cancelled [WithTerminate true]) (fun _ => true) 8).events
          = if (fun _ => true) 0 = true then
              [Event.step 0, Event.wait (F64.toInt64 (F64.ofInt
                (Exponential.config Cancelled [WithTerminate true]).min))]
            else [Event.step 0] :=
  cancelled_before_start (Exponential.config Cancelled [WithTerminate true]) (fun _ => true) 7 rfl

/-- The run in which cancellation wins at the wait after step `N`, reached
because the body continued, no cancellation won and no terminating ceiling was
met before: it returns within any bound above `N`, with the steps `0..N`. -/
theorem rangeFunc_cancelled (o : options) (yield : Nat → Bool) (N fuel : Nat)
    (hy : ∀ j, j ≤ N → yield j = true) (hn : ∀ j, j < N → o.ctx.done j = false)
    (ht : ∀ j, j < N → atCeiling o j = false) (hc : o.ctx.done N = true) (hf : N < fuel) :
    rangeFunc o yield fuel
      = ⟨prefixEvents o N 0 (F64.ofInt o.min)
          ++ [Event.step N, Event.wait (F64.toInt64 (delay o N))], true⟩ := by
  obtain ⟨k, rfl⟩ : ∃ k, fuel = N + (k + 1) := ⟨fuel - N - 1, by omega⟩
  have hrun := rangeFunc_prefix o yield N (k + 1) (fun j hj => hy j (Nat.le_of_lt hj)) hn ht
  have hlast : rangeFunc.loop o yield (F64.ofInt o.max) (k + 1) N (delay o N)
      = ⟨[Event.step N, Event.wait (F64.toInt64 (delay o N))], true⟩ := by
    rw [rangeFunc.loop]
    simp [hy N (Nat.le_refl N), hc]
  rw [hrun, hlast]

/-- C7: for every configuration and every N, if the loop body continues on
steps 0..N, the run requests the wait that follows step N and cancellation
wins the race during that wait, then `rangeFunc` has returned, having called
the loop body exactly N+1 times, with the steps 0..N, and having requested
exactly N+1 waits: nothing follows the cancelled wait, not even the final step
of a terminating ceiling reached at step N. -/
theorem cancel_during_wait (o : options) (yield : Nat → Bool) (N fuel : Nat)
    (hy : ∀ j, j ≤ N → yield j = true)
    (hw : N < (waits (rangeFunc o yield fuel).events).length)
    (hc : o.ctx.done N = true) :
    (rangeFunc o yield fuel).returned = true
      ∧ steps (rangeFunc o yield fuel).events = List.range (N + 1)
      ∧ (steps (rangeFunc o yield fuel).events).length = N + 1
      ∧ (waits (rangeFunc o yield fuel).events).length = N + 1
      ∧ (rangeFunc o yield fuel).events
          = prefixEvents o N 0 (F64.ofInt o.min)
            ++ [Event.step N, Event.wait (F64.toInt64 (delay o N))] := by
  obtain ⟨_, hn, ht, hf⟩ := rangeFunc_wait_requested o yield fuel N hw
  have hrun := rangeFunc_cancelled o yield N fuel hy hn ht hc hf
  have hsteps : steps (prefixEvents o N 0 (F64.ofInt o.min)
      ++ [Event.step N, Event.wait (F64.toInt64 (delay o N))]) = List.range (N + 1) := by
    rw [steps_append, steps_prefixEvents, List.range_succ, List.range_eq_range']
    rfl
  rw [hrun]
  refine ⟨rfl, hsteps, ?_, ?_, rfl⟩
  · rw [hsteps, List.length_range]
  · show (waits (prefixEvents o N 0 (F64.ofInt o.min)
        ++ [Event.step N, Event.wait (F64.toInt64 (delay o N))])).length = N + 1
    rw [waits_append, waits_prefixEvents]
    simp [waits]

/-- C7 at the default configuration with terminate, cancelled during the wait
after step 12, the wait at which the ceiling of one hour is reached: steps
0..12 and no final step. -/
theorem cancel_during_wait_witness :
    (rangeFunc (Exponential.config ⟨fun k => decide (k = 12)⟩ [WithTerminate true])
        (fun _ => true) 20).returned = true
      ∧ steps (rangeFunc (Exponential.config ⟨fun k => decide (k = 12)⟩ [WithTerminate true])
          (fun _ => true) 20).events = List.range (12 + 1)
      ∧ (steps (rangeFunc (Exponential.config ⟨fun k => decide (k = 12)⟩ [WithTerminate true])
          (fun _ => true) 20).events).length = 12 + 1
      ∧ (waits (rangeFunc (Exponential.config ⟨fun k => decide (k = 12)⟩ [WithTerminate true])
          (fun _ => true) 20).events).length = 12 + 1
      ∧ (rangeFunc (Exponential.config ⟨fun k => decide (k = 12)⟩ [WithTerminate true])
          (fun _ => true) 20).events
          = prefixEvents (Exponential.config ⟨fun k => decide (k = 12)⟩ [WithTerminate true]) 12 0
              (F64.ofInt (Exponential.config ⟨fun k => decide (k = 12)⟩ [WithTerminate true]).min)
            ++ [Event.step 12, Event.wait (F64.toInt64
              (delay (Exponential.config ⟨fun k => decide (k = 12)⟩ [WithTerminate true]) 12))] :=
  cancel_during_wait (Exponential.config ⟨fun k => decide (k = 12)⟩ [WithTerminate true])
    (fun _ => true) 12 20 (fun _ _ => rfl) (by decide) (by decide)

/-- C8: for every configuration and every N, if no cancellation wins before
step N, the terminating ceiling is not reached before step N, and the loop
body continues on steps 0..N-1 and stops at step N, then `rangeFunc` returns
after exactly N+1 steps (0..N) and exactly N waits, the last event being the
call of the body at step N: no wait is requested after the stop. -/
theorem stop_at_step (o : options) (yield : Nat → Bool) (N fuel : Nat)
    (hy : ∀ j, j < N → yield j = true) (hs : yield N = false)
    (hn : ∀ j, j < N → o.ctx.done j = false) (ht : ∀ j, j < N → atCeiling o j = false)
    (hf : N < fuel) :
    (rangeFunc o yield fuel).returned = true
      ∧ steps (rangeFunc o yield fuel).events = List.range (N + 1)
      ∧ (steps (rangeFunc o yield fuel).events).length = N + 1
      ∧ (waits (rangeFunc o yield fuel).events).length = N
      ∧ (rangeFunc o yield fuel).events
          = prefixEvents o N 0 (F64.ofInt o.min) ++ [Event.step N] := by
  obtain ⟨k, rfl⟩ : ∃ k, fuel = N + (k + 1) := ⟨fuel - N - 1, by omega⟩
  have hrun := rangeFunc_prefix o yield N (k + 1) hy hn ht
  have hlast : rangeFunc.loop o yield (F64.ofInt o.max) (k + 1) N (delay o N)
      = ⟨[Event.step N], true⟩ := by
    rw [rangeFunc.loop]
    simp [hs]
  rw [hrun, hlast]
  have hsteps : steps (prefixEvents o N 0 (F64.ofInt o.min) ++ [Event.step N])
      = List.range (N + 1) := by
    rw [steps_append, steps_prefixEvents, List.range_succ, List.range_eq_range']
    rfl
  refine ⟨rfl, hsteps, ?_, ?_, rfl⟩
  · rw [hsteps, List.length_range]
  · show (waits (prefixEvents o N 0 (F64.ofInt o.min) ++ [Event.step N])).length = N
    rw [waits_append, waits_prefixEvents]
    simp [waits]

/-- C8 at the default configuration with terminate and a body that stops at
step 5. -/
theorem stop_at_step_witness :
    (rangeFunc (Exponential.config Background [WithTerminate true])
        (fun i => decide (i < 5)) 9).returned = true
      ∧ steps (rangeFunc (Exponential.config Background [WithTerminate true])
          (fun i => decide (i < 5)) 9).events = List.range (5 + 1)
      ∧ (steps (rangeFunc (Exponential.config Background [WithTerminate true])
          (fun i => decide (i < 5)) 9).events).length = 5 + 1
      ∧ (waits (rangeFunc (Exponential.config Background [WithTerminate true])
          (fun i => decide (i < 5)) 9).events).length = 5
      ∧ (rangeFunc (Exponential.config Background [WithTerminate true])
          (fun i => decide (i < 5)) 9).events
          = prefixEvents (Exponential.config Background [WithTerminate true]) 5 0
              (F64.ofInt (Exponential.config Background [WithTerminate true]).min)
            ++ [Event.step 5] :=
  stop_at_step (Exponential.config Background [WithTerminate true]) (fun i => decide (i < 5))
    5 9 (by decide) (by decide) (by decide) (by decide) (by decide)

/-! ## The schedule with an integer multiplier -/

/-- The run that ends at a terminating ceiling reached at the wait after step `n`. -/
theorem rangeFunc_ceiling (o : options) (yield : Nat → Bool) (n fuel : Nat)
    (hy : ∀ j, j ≤ n → yield j = true) (hc : ∀ j, j ≤ n → o.ctx.done j = false)
    (ht : ∀ j, j < n → atCeiling o j = false) (htop : atCeiling o n = true) (hf : n < fuel) :
    rangeFunc o yield fuel
      = ⟨prefixEvents o n 0 (F64.ofInt o.min)
          ++ [Event.step n, Event.wait (F64.toInt64 (delay o n)), Event.step (n + 1)], true⟩ := by
  obtain ⟨k, rfl⟩ : ∃ k, fuel = n + (k + 1) := ⟨fuel - n - 1, by omega⟩
  have hrun := rangeFunc_prefix o yield n (k + 1) (fun j hj => hy j (Nat.le_of_lt hj))
    (fun j hj => hc j (Nat.le_of_lt hj)) ht
  have hlast : rangeFunc.loop o yield (F64.ofInt o.max) (k + 1) n (delay o n)
      = ⟨[Event.step n, Event.wait (F64.toInt64 (delay o n)), Event.step (n + 1)], true⟩ := by
    have htop2 : (F64.eq (delay o n) (F64.ofInt o.max) && o.terminate) = true := htop
    rw [rangeFunc.loop]
    simp only [hy n (Nat.le_refl n), hc n (Nat.le_refl n), htop2, if_true, Bool.false_eq_true,
      if_false]
  rw [hrun, hlast]

/-- A run in which nothing ends the loop: every iteration within the bound
produces its step and its wait. -/
theorem rangeFunc_unbounded (o : options) (yield : Nat → Bool) (fuel : Nat)
    (hy : ∀ j, j < fuel → yield j = true) (hc : ∀ j, j < fuel → o.ctx.done j = false)
    (ht : ∀ j, j < fuel → atCeiling o j = false) :
    rangeFunc o yield fuel = ⟨prefixEvents o fuel 0 (F64.ofInt o.min), false⟩ := by
  have h := rangeFunc_prefix o yield fuel 0 hy hc ht
  simpa [rangeFunc.loop] using h

/-- One capped multiplication of the capped power is the next capped power. -/
theorem min_mul_pow_step (a b m k : Nat) (hm : 1 ≤ m) :
    min (min (a * m ^ k) b * m) b = min (a * m ^ (k + 1)) b := by
  rcases Nat.le_total (a * m ^ k) b with h | h
  · rw [min_eq_left h, pow_succ, Nat.mul_assoc]
  · have h1 : b ≤ b * m := Nat.le_mul_of_pos_right b hm
    have h2 : b ≤ a * m ^ (k + 1) := by
      calc b ≤ a * m ^ k := h
        _ ≤ a * m ^ k * m := Nat.le_mul_of_pos_right _ hm
        _ = a * m ^ (k + 1) := by rw [pow_succ, Nat.mul_assoc]
    rw [min_eq_right h, min_eq_right h1, min_eq_right h2]

/-- With an integer multiplier and a ceiling below `2^53` the schedule is the
capped geometric sequence: the delay of iteration `k` is `min (a * m^k) b`.  A
product below `2^53` is computed without rounding; a larger one is rounded to a
value that is still above the ceiling. -/
theorem delay_nat (o : options) (a b m : Nat) (ha : 0 < a) (hab : a ≤ b) (hm : 1 ≤ m)
    (hb53 : b < 2 ^ 53) (hm53 : m < 2 ^ 53) (hmin : o.min = (a : Int))
    (hmax : o.max = (b : Int)) (hmul : o.multiplier = F64.ofInt (m : Int)) (k : Nat) :
    delay o k = F64.nat (min (a * m ^ k) b) := by
  have hb : 0 < b := lt_of_lt_of_le ha hab
  have ha53 : a < 2 ^ 53 := lt_of_le_of_lt hab hb53
  induction k with
  | zero =>
    simp only [delay, Function.iterate_zero, id_eq, hmin, pow_zero, Nat.mul_one, min_eq_left hab]
    exact F64.ofInt_nat a ha ha53
  | succ k ih =>
    have hc : 0 < min (a * m ^ k) b := lt_min (Nat.mul_pos ha (pow_pos hm k)) hb
    have hc53 : min (a * m ^ k) b < 2 ^ 53 := lt_of_le_of_lt (min_le_right _ _) hb53
    have hstep : delay o (k + 1) = advance o (delay o k) := by
      simp only [delay, Function.iterate_succ_apply']
    rw [hstep, ih, advance, hmul, hmax, F64.ofInt_nat m hm hm53, F64.ofInt_nat b hb hb53,
      ← min_mul_pow_step a b m k hm]
    rcases Nat.lt_or_ge (min (a * m ^ k) b * m) (2 ^ 53) with hcm | hcm
    · rw [F64.mul_nat _ _ hc hm hcm, math.Min_nat _ _ (Nat.mul_pos hc hm) hb hcm hb53]
    · rw [math.Min_large _ b hb hb53 (F64.mul_nat_large _ _ hc hm hc53 hm53 hcm),
        min_eq_right (le_trans (le_of_lt hb53) hcm)]

/-- The ceiling `⌈log_m (b/a)⌉` is the least exponent `j` with `b ≤ a * m^j`. -/
theorem ceil_logb_le_iff (a b m j : Nat) (ha : 0 < a) (hb : 0 < b) (hm : 1 < m) :
    ⌈Real.logb (m : ℝ) ((b : ℝ) / (a : ℝ))⌉₊ ≤ j ↔ b ≤ a * m ^ j := by
  have ha' : (0 : ℝ) < (a : ℝ) := by exact_mod_cast ha
  have hb' : (0 : ℝ) < (b : ℝ) := by exact_mod_cast hb
  have hm' : (1 : ℝ) < (m : ℝ) := by exact_mod_cast hm
  rw [Nat.ceil_le, Real.logb_le_iff_le_rpow hm' (div_pos hb' ha'), Real.rpow_natCast,
    div_le_iff₀ ha']
  constructor
  · intro h
    have h2 : (b : ℝ) ≤ ((a * m ^ j : Nat) : ℝ) := by push_cast; linarith
    exact_mod_cast h2
  · intro h
    have h2 : (b : ℝ) ≤ ((a * m ^ j : Nat) : ℝ) := by exact_mod_cast h
    push_cast at h2; linarith

theorem atCeiling_nat (o : options) (a b m : Nat) (ha : 0 < a) (hab : a ≤ b) (hm : 1 ≤ m)
    (hb53 : b < 2 ^ 53) (hm53 : m < 2 ^ 53) (hmin : o.min = (a : Int))
    (hmax : o.max = (b : Int)) (hmul : o.multiplier = F64.ofInt (m : Int))
    (hterm : o.terminate = true) (k : Nat) :
    atCeiling o k = decide (b ≤ a * m ^ k) := by
  have hb : 0 < b := lt_of_lt_of_le ha hab
  have hc : 0 < min (a * m ^ k) b := lt_min (Nat.mul_pos ha (pow_pos hm k)) hb
  have hc53 : min (a * m ^ k) b < 2 ^ 53 := lt_of_le_of_lt (min_le_right _ _) hb53
  rw [atCeiling, delay_nat o a b m ha hab hm hb53 hm53 hmin hmax hmul k, hmax,
    F64.ofInt_nat b hb hb53, F64.eq_nat _ _ hc hb hc53 hb53, hterm, Bool.and_true]
  simp only [min_eq_right_iff, decide_eq_decide]

/-- In `n` full iterations, the events at positions `2j` and `2j+1` are the step
`i + j` and the wait that follows it. -/
theorem prefixEvents_getElem (o : options) (n i : Nat) (s : F64) (j : Nat) (hj : j < n) :
    (prefixEvents o n i s)[2 * j]? = some (Event.step (i + j))
      ∧ (prefixEvents o n i s)[2 * j + 1]?
          = some (Event.wait (F64.toInt64 ((advance o)^[j] s))) := by
  induction n generalizing i s j with
  | zero => omega
  | succ n ih =>
    cases j with
    | zero => simp [prefixEvents]
    | succ j =>
      have h := ih (i + 1) (advance o s) j (by omega)
      have e1 : 2 * (j + 1) = 2 * j + 1 + 1 := by omega
      rw [e1]
      simp only [prefixEvents, List.getElem?_cons_succ, Function.iterate_succ_apply]
      rw [h.1, h.2]
      simp [Nat.add_assoc, Nat.add_comm 1 j]

/-- The hypotheses on the configuration, moved from `Int` to `Nat`. -/
theorem exact_config_nat (o : options) (m : Int) (hmin : 0 < o.min) (hmax : o.min ≤ o.max)
    (hm : 1 < m) (hm53 : m < 2 ^ 53) (hexact : o.max < 2 ^ 53) :
    ∃ a b c : Nat, o.min = (a : Int) ∧ o.max = (b : Int) ∧ m = (c : Int) ∧ 0 < a ∧ a ≤ b
      ∧ 1 < c ∧ b < 2 ^ 53 ∧ c < 2 ^ 53 := by
  obtain ⟨a, ha⟩ := Int.eq_ofNat_of_zero_le (le_of_lt hmin)
  obtain ⟨b, hb⟩ := Int.eq_ofNat_of_zero_le (le_trans (le_of_lt hmin) hmax)
  obtain ⟨c, hc⟩ := Int.eq_ofNat_of_zero_le (le_of_lt (lt_trans Int.zero_lt_one hm))
  refine ⟨a, b, c, ha, hb, hc, ?_, ?_, ?_, ?_, ?_⟩
  · rw [ha] at hmin; exact_mod_cast hmin
  · rw [ha, hb] at hmax; exact_mod_cast hmax
  · rw [hc] at hm; exact_mod_cast hm
  · rw [hb] at hexact; exact_mod_cast hexact
  · rw [hc] at hm53; exact_mod_cast hm53

/-- C1, amended: for every configuration with min > 0, max ≥ min, max < 2^53
nanoseconds, an integer multiplier m with 1 < m < 2^53 and terminate not
enabled, when the context is
never cancelled and the loop body always continues, the K-th wait requested by
`rangeFunc`, the one between step K-1 and step K, is exactly
`min (min * m^(K-1)) max`, for every K ≥ 1, and the run starts with step 0,
no wait before it. -/
theorem exponential_waits (o : options) (yield : Nat → Bool) (m : Int) (K fuel : Nat)
    (hmin : 0 < o.min) (hmax : o.min ≤ o.max) (hm : 1 < m) (hm53 : m < 2 ^ 53)
    (hmul : o.multiplier = F64.ofInt m) (hexact : o.max < 2 ^ 53)
    (hterm : o.terminate = false) (hctx : ∀ k, o.ctx.done k = false)
    (hy : ∀ i, yield i = true) (hK : 1 ≤ K) (hf : K ≤ fuel) :
    (waits (rangeFunc o yield fuel).events)[K - 1]?
        = some (some (min (o.min * m ^ (K - 1)) o.max))
      ∧ (rangeFunc o yield fuel).events[2 * (K - 1)]? = some (Event.step (K - 1))
      ∧ (rangeFunc o yield fuel).events[2 * (K - 1) + 1]?
          = some (Event.wait (some (min (o.min * m ^ (K - 1)) o.max)))
      ∧ (rangeFunc o yield fuel).events.head? = some (Event.step 0) := by
  obtain ⟨a, b, c, ha, hb, hc, ha0, hab, hc1, hb53, hc53⟩ :=
    exact_config_nat o m hmin hmax hm hm53 hexact
  have hc1' : 1 ≤ c := Nat.le_of_lt hc1
  have hrun := rangeFunc_unbounded o yield fuel (fun j _ => hy j) (fun j _ => hctx j)
    (fun j _ => by simp [atCeiling, hterm])
  have hd : ∀ k, F64.toInt64 (delay o k) = some (min (o.min * m ^ k) o.max) := by
    intro k
    have h0 : 0 < min (a * c ^ k) b :=
      lt_min (Nat.mul_pos ha0 (pow_pos hc1' k)) (lt_of_lt_of_le ha0 hab)
    rw [delay_nat o a b c ha0 hab hc1' hb53 hc53 ha hb (hc ▸ hmul) k,
      F64.toInt64_nat _ h0 (lt_of_le_of_lt (min_le_right _ _) hb53), ha, hb, hc]
    push_cast
    rfl
  have hk : K - 1 < fuel := by omega
  obtain ⟨g1, g2⟩ := prefixEvents_getElem o fuel 0 (F64.ofInt o.min) (K - 1) hk
  have hd' : F64.toInt64 ((advance o)^[K - 1] (F64.ofInt o.min))
      = some (min (o.min * m ^ (K - 1)) o.max) := hd (K - 1)
  rw [hrun]
  refine ⟨?_, ?_, ?_, ?_⟩
  · rw [waits_prefixEvents, List.getElem?_map, List.getElem?_range hk]
    simp only [Option.map_some', hd']
  · simpa using g1
  · rw [g2, hd']
  · obtain ⟨f, rfl⟩ : ∃ f, fuel = f + 1 := ⟨fuel - 1, by omega⟩
    simp [prefixEvents]

/-- C2, amended: for every configuration with min > 0, max ≥ min, max < 2^53
nanoseconds, an integer multiplier m with 1 < m < 2^53 and terminate enabled, when
the context is never cancelled and the loop body always continues, `rangeFunc`
returns (within any bound `fuel + 1` such that max ≤ min * m^fuel) after
calling the loop body exactly `⌈log_m (max / min)⌉ + 2` times, with the steps
`0, 1, …, ⌈log_m (max / min)⌉ + 1`. -/
theorem terminate_step_count (o : options) (yield : Nat → Bool) (m : Int) (fuel : Nat)
    (hmin : 0 < o.min) (hmax : o.min ≤ o.max) (hm : 1 < m) (hm53 : m < 2 ^ 53)
    (hmul : o.multiplier = F64.ofInt m) (hexact : o.max < 2 ^ 53)
    (hterm : o.terminate = true) (hctx : ∀ k, o.ctx.done k = false)
    (hy : ∀ i, yield i = true) (hf : o.max ≤ o.min * m ^ fuel) :
    (rangeFunc o yield (fuel + 1)).returned = true
      ∧ (steps (rangeFunc o yield (fuel + 1)).events).length
          = ⌈Real.logb (m : ℝ) ((o.max : ℝ) / (o.min : ℝ))⌉₊ + 2
      ∧ steps (rangeFunc o yield (fuel + 1)).events
          = List.range (⌈Real.logb (m : ℝ) ((o.max : ℝ) / (o.min : ℝ))⌉₊ + 2) := by
  obtain ⟨a, b, c, ha, hb, hc, ha0, hab, hc1, hb53, hc53⟩ :=
    exact_config_nat o m hmin hmax hm hm53 hexact
  have hc1' : 1 ≤ c := Nat.le_of_lt hc1
  have hb0 : 0 < b := lt_of_lt_of_le ha0 hab
  have hcast : Real.logb (m : ℝ) ((o.max : ℝ) / (o.min : ℝ))
      = Real.logb (c : ℝ) ((b : ℝ) / (a : ℝ)) := by
    rw [ha, hb, hc]; push_cast; rfl
  rw [hcast]
  have hat : ∀ k, atCeiling o k = decide (b ≤ a * c ^ k) :=
    atCeiling_nat o a b c ha0 hab hc1' hb53 hc53 ha hb (hc ▸ hmul) hterm
  have hfn : b ≤ a * c ^ fuel := by
    rw [ha, hb, hc] at hf; exact_mod_cast hf
  have hn : ⌈Real.logb (c : ℝ) ((b : ℝ) / (a : ℝ))⌉₊ ≤ fuel :=
    (ceil_logb_le_iff a b c fuel ha0 hb0 hc1).mpr hfn
  have hrun := rangeFunc_ceiling o yield ⌈Real.logb (c : ℝ) ((b : ℝ) / (a : ℝ))⌉₊ (fuel + 1)
    (fun j _ => hy j) (fun j _ => hctx j)
    (fun j hj => by
      rw [hat j, decide_eq_false_iff_not, ← ceil_logb_le_iff a b c j ha0 hb0 hc1]
      omega)
    (by
      rw [hat, decide_eq_true_eq, ← ceil_logb_le_iff a b c _ ha0 hb0 hc1])
    (by omega)
  have hsteps : steps (rangeFunc o yield (fuel + 1)).events
      = List.range (⌈Real.logb (c : ℝ) ((b : ℝ) / (a : ℝ))⌉₊ + 2) := by
    rw [hrun]
    simp only [steps_append, steps_prefixEvents, steps]
    rw [List.range_succ, List.range_succ, List.range_eq_range']
    simp
  refine ⟨by rw [hrun], ?_, hsteps⟩
  rw [hsteps, List.length_range]

/-- C1, as stated, fails: with min = 1ns, max = 1h and the multiplier 1.5 (all
hypotheses of the claim hold), the second wait requested is 1ns, the
truncation of 1.5ns, while `min (min * multiplier^1) max` is 1.5ns. -/
theorem exponential_waits_counterexample :
    (0 < fractionalConfig.min ∧ fractionalConfig.min ≤ fractionalConfig.max
        ∧ F64.lt (F64.ofInt 1) fractionalConfig.multiplier = true
        ∧ fractionalConfig.terminate = false)
      ∧ fractionalConfig.multiplier = F64.round false 3 (-1)
      ∧ F64.toRat fractionalConfig.multiplier = 3 / 2
      ∧ (waits (rangeFunc fractionalConfig (fun _ => true) 2).events)[2 - 1]? = some (some 1)
      ∧ ((1 : Int) : ℚ) ≠ min ((fractionalConfig.min : ℚ)
          * F64.toRat fractionalConfig.multiplier ^ (2 - 1)) (fractionalConfig.max : ℚ) := by
  have hr : F64.toRat fractionalConfig.multiplier = 3 / 2 := by
    simp only [fractionalConfig, F64.toRat]
    norm_num
  refine ⟨by decide, by decide, hr, by decide, ?_⟩
  rw [hr]
  simp only [fractionalConfig, Hour, Second]
  norm_num

/-- C1, amended, at the configuration of the test `multiplier5`: the seventh wait. -/
theorem exponential_waits_witness :
    (waits (rangeFunc (Exponential.config Background [WithMultiplier (F64.ofInt 5)])
        (fun _ => true) 20).events)[7 - 1]?
        = some (some (min ((Exponential.config Background [WithMultiplier (F64.ofInt 5)]).min
            * 5 ^ (7 - 1)) (Exponential.config Background [WithMultiplier (F64.ofInt 5)]).max))
      ∧ (rangeFunc (Exponential.config Background [WithMultiplier (F64.ofInt 5)])
          (fun _ => true) 20).events[2 * (7 - 1)]? = some (Event.step (7 - 1))
      ∧ (rangeFunc (Exponential.config Background [WithMultiplier (F64.ofInt 5)])
          (fun _ => true) 20).events[2 * (7 - 1) + 1]?
          = some (Event.wait (some (min
              ((Exponential.config Background [WithMultiplier (F64.ofInt 5)]).min * 5 ^ (7 - 1))
              (Exponential.config Background [WithMultiplier (F64.ofInt 5)]).max)))
      ∧ (rangeFunc (Exponential.config Background [WithMultiplier (F64.ofInt 5)])
          (fun _ => true) 20).events.head? = some (Event.step 0) :=
  exponential_waits (Exponential.config Background [WithMultiplier (F64.ofInt 5)])
    (fun _ => true) 5 7 20 (by decide) (by decide) (by decide) (by decide) rfl (by decide) rfl
    (fun _ => rfl) (fun _ => rfl) (by decide) (by decide)

/-- C2, as stated, fails: with min = 2^53 ns, max = 2^53 + 1 ns, multiplier 2
and terminate enabled (all hypotheses of the claim hold), `float64(min)` and
`float64(max)` are the same number, so the ceiling is met at the first wait
and the loop body is called twice, while `⌈log_2 (max / min)⌉ + 2` is 3. -/
theorem terminate_step_count_counterexample :
    (0 < roundedConfig.min ∧ roundedConfig.min ≤ roundedConfig.max
        ∧ F64.lt (F64.ofInt 1) roundedConfig.multiplier = true
        ∧ roundedConfig.terminate = true)
      ∧ F64.toRat roundedConfig.multiplier = 2
      ∧ F64.ofInt roundedConfig.min = F64.ofInt roundedConfig.max
      ∧ rangeFunc roundedConfig (fun _ => true) 5
          = ⟨[Event.step 0, Event.wait (some (2 ^ 53)), Event.step 1], true⟩
      ∧ (steps (rangeFunc roundedConfig (fun _ => true) 5).events).length
          ≠ ⌈Real.logb ((F64.toRat roundedConfig.multiplier : ℚ) : ℝ)
              ((roundedConfig.max : ℝ) / (roundedConfig.min : ℝ))⌉₊ + 2 := by
  have hm : roundedConfig.multiplier = F64.fin false (2 ^ 52) (-51) := by decide
  have hr : F64.toRat roundedConfig.multiplier = 2 := by
    rw [hm]
    simp only [F64.toRat]
    norm_num
  have hrun : rangeFunc roundedConfig (fun _ => true) 5
      = ⟨[Event.step 0, Event.wait (some (2 ^ 53)), Event.step 1], true⟩ := by decide
  refine ⟨by decide, hr, by decide, hrun, ?_⟩
  rw [hrun, hr]
  have hpos : 0 < Real.logb ((2 : ℚ) : ℝ) ((roundedConfig.max : ℝ) / (roundedConfig.min : ℝ)) := by
    apply Real.logb_pos
    · norm_num
    · simp only [roundedConfig]
      norm_num
  have hceil := Nat.ceil_pos.mpr hpos
  simp only [steps, List.length_cons, List.length_nil]
  omega

/-- C2, amended, at the configuration of the test `multiplier5` with terminate:
the run returns within 7 iterations. -/
theorem terminate_step_count_witness :
    (rangeFunc (Exponential.config Background [WithMultiplier (F64.ofInt 5), WithTerminate true])
        (fun _ => true) (6 + 1)).returned = true
      ∧ (steps (rangeFunc
          (Exponential.config Background [WithMultiplier (F64.ofInt 5), WithTerminate true])
          (fun _ => true) (6 + 1)).events).length
          = ⌈Real.logb ((5 : Int) : ℝ)
              (((Exponential.config Background
                  [WithMultiplier (F64.ofInt 5), WithTerminate true]).max : ℝ)
                / ((Exponential.config Background
                  [WithMultiplier (F64.ofInt 5), WithTerminate true]).min : ℝ))⌉₊ + 2
      ∧ steps (rangeFunc
          (Exponential.config Background [WithMultiplier (F64.ofInt 5), WithTerminate true])
          (fun _ => true) (6 + 1)).events
          = List.range (⌈Real.logb ((5 : Int) : ℝ)
              (((Exponential.config Background
                  [WithMultiplier (F64.ofInt 5), WithTerminate true]).max : ℝ)
                / ((Exponential.config Background
                  [WithMultiplier (F64.ofInt 5), WithTerminate true]).min : ℝ))⌉₊ + 2) :=
  terminate_step_count
    (Exponential.config Background [WithMultiplier (F64.ofInt 5), WithTerminate true])
    (fun _ => true) 5 6 (by decide) (by decide) (by decide) (by decide) rfl (by decide) rfl
    (fun _ => rfl) (fun _ => rfl) (by decide)

/-- The count of C2 also fails for a multiplier that is not an integer, at small
durations: with min = 3ns, max = 4ns and the multiplier `float64(4.0/3.0)`,
which is less than 4/3, the product `3 * multiplier` is rounded up to 4, the
ceiling, so the body is called 3 times, while `min * multiplier < max` and
`⌈log_multiplier (max / min)⌉ + 2` is at least 4. -/
theorem terminate_step_count_fraction :
    F64.mul (F64.ofInt thirdsConfig.min) thirdsConfig.multiplier = F64.ofInt thirdsConfig.max
      ∧ (thirdsConfig.min : ℚ) * F64.toRat thirdsConfig.multiplier < (thirdsConfig.max : ℚ)
      ∧ steps (rangeFunc thirdsConfig (fun _ => true) 9).events = [0, 1, 2]
      ∧ 4 ≤ ⌈Real.logb ((F64.toRat thirdsConfig.multiplier : ℚ) : ℝ)
              ((thirdsConfig.max : ℝ) / (thirdsConfig.min : ℝ))⌉₊ + 2 := by
  have hr : F64.toRat thirdsConfig.multiplier = 6004799503160661 / 4503599627370496 := by
    simp only [thirdsConfig, F64.toRat]
    norm_num
  refine ⟨by decide, ?_, by decide, ?_⟩
  · rw [hr]
    simp only [thirdsConfig]
    norm_num
  · have h1 : (1 : ℝ) < Real.logb ((F64.toRat thirdsConfig.multiplier : ℚ) : ℝ)
        ((thirdsConfig.max : ℝ) / (thirdsConfig.min : ℝ)) := by
      rw [hr, Real.lt_logb_iff_rpow_lt (by norm_num) (by simp only [thirdsConfig]; norm_num),
        Real.rpow_one]
      simp only [thirdsConfig]
      norm_num
    have h2 : 1 < ⌈Real.logb ((F64.toRat thirdsConfig.multiplier : ℚ) : ℝ)
        ((thirdsConfig.max : ℝ) / (thirdsConfig.min : ℝ))⌉₊ := by
      rw [Nat.lt_ceil]
      exact_mod_cast h1
    omega

/-- The tables of `TestExponential`: the waits of the three test configurations
are those expected, with the last entry repeated. -/
theorem TestExponential_tables :
    waits (Exponential Background [] (fun _ => true) 15).events
        = [some 1000000000, some 2000000000, some 4000000000, some 8000000000,
           some 16000000000, some 32000000000, some 64000000000, some 128000000000,
           some 256000000000, some 512000000000, some 1024000000000, some 2048000000000,
           some 3600000000000, some 3600000000000, some 3600000000000]
      ∧ waits (Exponential Background [WithMultiplier (F64.ofInt 5)] (fun _ => true) 9).events
        = [some 1000000000, some 5000000000, some 25000000000, some 125000000000,
           some 625000000000, some 3125000000000, some 3600000000000, some 3600000000000,
           some 3600000000000]
      ∧ waits (Exponential Background [WithMin (3 * Second), WithMax (12 * Second)]
          (fun _ => true) 5).events
        = [some 3000000000, some 6000000000, some 12000000000, some 12000000000,
           some 12000000000] := by
  decide

/-- The counts of `TestWithTerminate`: 14, 8 and 4 calls of the loop body, after
which the iterator has returned. -/
theorem TestWithTerminate_counts :
    Exponential Background [WithTerminate true] (fun _ => true) 20
        = Exponential Background [WithTerminate true] (fun _ => true) 13
      ∧ (Exponential Background [WithTerminate true] (fun _ => true) 13).returned = true
      ∧ steps (Exponential Background [WithTerminate true] (fun _ => true) 13).events
          = List.range 14
      ∧ (Exponential Background [WithMultiplier (F64.ofInt 5), WithTerminate true]
          (fun _ => true) 7).returned = true
      ∧ steps (Exponential Background [WithMultiplier (F64.ofInt 5), WithTerminate true]
          (fun _ => true) 7).events = List.range 8
      ∧ (Exponential Background [WithMin (3 * Second), WithMax (12 * Second), WithTerminate true]
          (fun _ => true) 3).returned = true
      ∧ steps (Exponential Background
          [WithMin (3 * Second), WithMax (12 * Second), WithTerminate true]
          (fun _ => true) 3).events = List.range 4 := by
  decide

/-! ## The example of the package -/

/-- Once the loop has returned within a bound, a larger bound gives the same run. -/
theorem loop_returned_mono (o : options) (yield : Nat → Bool) (mx : F64) (fuel k i : Nat)
    (s : F64) (h : (rangeFunc.loop o yield mx fuel i s).returned = true) :
    rangeFunc.loop o yield mx (fuel + k) i s = rangeFunc.loop o yield mx fuel i s := by
  induction fuel generalizing i s with
  | zero => simp [rangeFunc.loop] at h
  | succ fuel ih =>
    have hfuel : fuel + 1 + k = (fuel + k) + 1 := by omega
    rw [hfuel]
    rw [rangeFunc.loop] at h ⊢
    conv_rhs => rw [rangeFunc.loop]
    by_cases hy : yield i = true
    · by_cases hc : o.ctx.done i = true
      · simp only [hy, hc, if_true]
      · by_cases ht : (F64.eq s mx && o.terminate) = true
        · simp only [hy, hc, ht, if_true, Bool.false_eq_true, if_false]
        · simp only [hy, hc, ht, if_true, Bool.false_eq_true, if_false] at h ⊢
          rw [ih _ _ h]
    · simp only [hy, Bool.false_eq_true, if_false]

theorem rangeFunc_returned_mono (o : options) (yield : Nat → Bool) (fuel k : Nat)
    (h : (rangeFunc o yield fuel).returned = true) :
    rangeFunc o yield (fuel + k) = rangeFunc o yield fuel :=
  loop_returned_mono o yield _ fuel k 0 _ h

/-- Within a bound of `fuel` iterations from the counter `i`, no step beyond
`i + fuel` is produced. -/
theorem loop_steps_le (o : options) (yield : Nat → Bool) (mx : F64) (fuel i : Nat) (s : F64)
    (j : Nat) (h : j ∈ steps (rangeFunc.loop o yield mx fuel i s).events) : j ≤ i + fuel := by
  induction fuel generalizing i s with
  | zero => simp [rangeFunc.loop, steps] at h
  | succ fuel ih =>
    rw [rangeFunc.loop] at h
    by_cases hy : yield i = true
    · by_cases hc : o.ctx.done i = true
      · simp only [hy, hc, if_true, steps, List.mem_singleton] at h
        omega
      · by_cases ht : (F64.eq s mx && o.terminate) = true
        · simp only [hy, hc, ht, if_true, Bool.false_eq_true, if_false, steps,
            List.mem_cons, List.mem_singleton, List.not_mem_nil, or_false] at h
          omega
        · simp only [hy, hc, ht, if_true, Bool.false_eq_true, if_false, steps,
            List.mem_cons] at h
          rcases h with h | h
          · omega
          · have := ih _ _ h
            omega
    · simp only [hy, Bool.false_eq_true, if_false, steps, List.mem_singleton] at h
      omega

/-- C5 fails on the code: the configuration of `ExampleExponential`, built with
`WithTerminate(false)`, has terminate = true; with no cancellation and a body
that always continues, the run returns after the steps 0..13 (within 13
iterations, and every larger bound gives the same run), so step 14 is never
produced. -/
theorem ExampleExponential_returns :
    exampleConfig = ⟨Second, Hour, F64.ofInt 2, true, Background⟩
      ∧ (∀ k, rangeFunc exampleConfig (fun _ => true) (13 + k)
          = rangeFunc exampleConfig (fun _ => true) 13)
      ∧ (rangeFunc exampleConfig (fun _ => true) 13).returned = true
      ∧ steps (rangeFunc exampleConfig (fun _ => true) 13).events = List.range 14
      ∧ ∀ fuel, 14 ∉ steps (rangeFunc exampleConfig (fun _ => true) fuel).events := by
  have hret : (rangeFunc exampleConfig (fun _ => true) 13).returned = true := by decide
  have hsteps : steps (rangeFunc exampleConfig (fun _ => true) 13).events = List.range 14 := by
    decide
  have hmono := fun k => rangeFunc_returned_mono exampleConfig (fun _ => true) 13 k hret
  refine ⟨rfl, hmono, hret, hsteps, ?_⟩
  intro fuel hmem
  rcases Nat.lt_or_ge fuel 13 with h | h
  · have := loop_steps_le exampleConfig (fun _ => true) _ fuel 0 _ 14 hmem
    omega
  · obtain ⟨k, rfl⟩ : ∃ k, fuel = 13 + k := ⟨fuel - 13, by omega⟩
    rw [hmono k, hsteps] at hmem
    simp at hmem

/-! ## Two runs of one configuration -/

/-- The loop reads the context only through the outcomes of its selects and
the body only through its decisions: two loops over configurations with the
same schedule fields, whose selects and bodies decide alike at the counters
the loops reach, run alike. -/
theorem loop_agree (o1 o2 : options) (yield1 yield2 : Nat → Bool) (mx : F64)
    (hmul : o1.multiplier = o2.multiplier) (hterm : o1.terminate = o2.terminate)
    (fuel i : Nat) (s : F64)
    (hctx : ∀ j, i ≤ j → j < i + fuel → o1.ctx.done j = o2.ctx.done j)
    (hy : ∀ j, i ≤ j → j < i + fuel → yield1 j = yield2 j) :
    rangeFunc.loop o1 yield1 mx fuel i s = rangeFunc.loop o2 yield2 mx fuel i s := by
  induction fuel generalizing i s with
  | zero => rfl
  | succ fuel ih =>
    rw [rangeFunc.loop, rangeFunc.loop, hy i (le_refl _) (by omega),
      hctx i (le_refl _) (by omega), hterm, hmul,
      ih (i + 1) _ (fun j h1 h2 => hctx j (by omega) (by omega))
        (fun j h1 h2 => hy j (by omega) (by omega))]

/-- The run of the loop on the memory is the run of `rangeFunc.loop` on the
struct and the local variables the memory holds. -/
theorem inPlaceLoop_run (yield : Nat → Bool) (fuel : Nat) (m : Store) :
    (rangeFunc.inPlaceLoop yield fuel m).1 = rangeFunc.loop m.o yield m.max fuel m.i m.s := by
  induction fuel generalizing m with
  | zero => rfl
  | succ fuel ih =>
    rw [rangeFunc.inPlaceLoop, rangeFunc.loop]
    split_ifs <;> first | rfl | (simp only []; rw [ih])

/-- The loop leaves the struct `*o` in the memory as it found it: its
assignments are to the local variables `s` and `i` only. -/
theorem inPlaceLoop_frame (yield : Nat → Bool) (fuel : Nat) (m : Store) :
    (rangeFunc.inPlaceLoop yield fuel m).2.o = m.o := by
  induction fuel generalizing m with
  | zero => rfl
  | succ fuel ih =>
    rw [rangeFunc.inPlaceLoop]
    split_ifs <;> first | rfl | (simp only []; rw [ih])

/-- The run of `rangeFunc` on the struct in memory is the run `rangeFunc`
computes from the struct as a value. -/
theorem inPlace_run (o : options) (yield : Nat → Bool) (fuel : Nat) :
    (rangeFunc.inPlace o yield fuel).1 = rangeFunc o yield fuel := by
  unfold rangeFunc.inPlace rangeFunc
  exact inPlaceLoop_run yield fuel _

/-- A run of `rangeFunc` leaves the struct `*o` as it found it. -/
theorem inPlace_frame (o : options) (yield : Nat → Bool) (fuel : Nat) :
    (rangeFunc.inPlace o yield fuel).2 = o := by
  unfold rangeFunc.inPlace
  exact inPlaceLoop_frame yield fuel _

/-- The runs read the struct in the memory: were `min` changed between two
runs, as the option `WithMin` changes it before the first, the second run
would request other waits. -/
theorem inPlace_reads_struct :
    waits (rangeFunc.inPlace
        (WithMin 5 (rangeFunc.inPlace halvingConfig (fun _ => true) 2).2)
        (fun _ => true) 2).1.events
      ≠ waits (rangeFunc.inPlace halvingConfig (fun _ => true) 2).1.events := by
  decide

/-- C11: a run of `rangeFunc` does not modify the configuration: whatever the
loop body decides, cancelled or not, for any number of iterations, the struct
`*o` the iterator is bound to is after the run what it was before, and the
run is the one `rangeFunc` computes from that struct.  So a second run of the
same iterator, started on the struct the first run left (the `Done` channel
of its context behaving during the second run as `c2` says), with no
cancellation in either run and a loop body that decides as in the first run,
is the same run: the same step indices and the same series of requested
waits; and it leaves the struct unmodified again.  The iterator returned by
`Exponential ctx opts` is the case `o = Exponential.config ctx opts`. -/
theorem rangeFunc_restartable (o : options) (c2 : Context) (yield1 yield2 : Nat → Bool)
    (fuel : Nat)
    (h1 : ∀ i, i < fuel → o.ctx.done i = false)
    (h2 : ∀ i, i < fuel → c2.done i = false)
    (hy : ∀ i, i < fuel → yield1 i = yield2 i) :
    (∀ (yield : Nat → Bool) (n : Nat),
        (rangeFunc.inPlace o yield n).2 = o
          ∧ (rangeFunc.inPlace o yield n).1 = rangeFunc o yield n)
      ∧ (rangeFunc.inPlace ((rangeFunc.inPlace o yield1 fuel).2.during c2) yield2 fuel).1
          = (rangeFunc.inPlace o yield1 fuel).1
      ∧ steps (rangeFunc.inPlace
            ((rangeFunc.inPlace o yield1 fuel).2.during c2) yield2 fuel).1.events
          = steps (rangeFunc.inPlace o yield1 fuel).1.events
      ∧ waits (rangeFunc.inPlace
            ((rangeFunc.inPlace o yield1 fuel).2.during c2) yield2 fuel).1.events
          = waits (rangeFunc.inPlace o yield1 fuel).1.events
      ∧ (rangeFunc.inPlace ((rangeFunc.inPlace o yield1 fuel).2.during c2) yield2 fuel).2
          = o.during c2 := by
  have h : (rangeFunc.inPlace ((rangeFunc.inPlace o yield1 fuel).2.during c2) yield2 fuel).1
      = (rangeFunc.inPlace o yield1 fuel).1 := by
    rw [inPlace_frame, inPlace_run, inPlace_run]
    unfold rangeFunc
    exact loop_agree (o.during c2) o yield2 yield1 _ rfl rfl fuel 0 _
      (fun j _ hj => by
        rw [h1 j (by omega)]
        exact h2 j (by omega))
      (fun j _ hj => (hy j (by omega)).symm)
  refine ⟨fun yield n => ⟨inPlace_frame o yield n, inPlace_run o yield n⟩, h, ?_, ?_, ?_⟩
  · rw [h]
  · rw [h]
  · rw [inPlace_frame, inPlace_frame]

/-- C11 at the default configuration with terminate: a first run of 9
continuing steps, then a second run on the struct the first left, with a body
that decides the same. -/
theorem rangeFunc_restartable_witness :
    (rangeFunc.inPlace ((rangeFunc.inPlace (Exponential.config Background [WithTerminate true])
        (fun i => decide (i < 9)) 20).2.during ⟨fun i => decide (i + 1 = 0)⟩)
        (fun i => !decide (9 ≤ i)) 20).1
      = (rangeFunc.inPlace (Exponential.config Background [WithTerminate true])
        (fun i => decide (i < 9)) 20).1 :=
  (rangeFunc_restartable (Exponential.config Background [WithTerminate true])
    ⟨fun i => decide (i + 1 = 0)⟩ (fun i => decide (i < 9)) (fun i => !decide (9 ≤ i)) 20
    (fun _ _ => rfl) (fun i _ => by simp)
    (fun i _ => by simp only [← decide_not, not_le])).2.1

/-! ## Runs that never end -/

/-- The setters other than `WithTerminate` leave `terminate` and `ctx` as they are. -/
theorem applyOpts_setters (opts : List (options → options)) (o : options)
    (h : ∀ opt, opt ∈ opts → (∃ d, opt = WithMin d) ∨ (∃ d, opt = WithMax d)
      ∨ (∃ m, opt = WithMultiplier m)) :
    (applyOpts o opts).terminate = o.terminate ∧ (applyOpts o opts).ctx = o.ctx := by
  induction opts generalizing o with
  | nil => exact ⟨rfl, rfl⟩
  | cons opt rest ih =>
    have hrest := ih (opt o) (fun x hx => h x (List.mem_cons_of_mem _ hx))
    rw [applyOpts, hrest.1, hrest.2]
    rcases h opt (List.mem_cons_self _ _) with ⟨d, rfl⟩ | ⟨d, rfl⟩ | ⟨m, rfl⟩ <;> exact ⟨rfl, rfl⟩

/-- C12: with terminate = false, for every configuration, with no cancellation
and a loop body that always continues, the run never returns: within any bound
`fuel` it has produced exactly the steps `0..fuel-1` and has not returned, so
for every N the loop body is called with step N.  The configuration built by
`Exponential` from options other than `WithTerminate` has terminate = false. -/
theorem never_ends (o : options) (yield : Nat → Bool) (N : Nat)
    (hterm : o.terminate = false) (hctx : ∀ k, o.ctx.done k = false)
    (hy : ∀ i, yield i = true) :
    (∀ fuel, (rangeFunc o yield fuel).returned = false
        ∧ steps (rangeFunc o yield fuel).events = List.range fuel)
      ∧ N ∈ steps (rangeFunc o yield (N + 1)).events
      ∧ ∀ (ctx : Context) (opts : List (options → options)),
          (∀ opt, opt ∈ opts → (∃ d, opt = WithMin d) ∨ (∃ d, opt = WithMax d)
            ∨ (∃ m, opt = WithMultiplier m)) →
          (Exponential.config ctx opts).terminate = false
            ∧ (Exponential.config ctx opts).ctx = ctx := by
  have hrun : ∀ fuel, rangeFunc o yield fuel
      = ⟨prefixEvents o fuel 0 (F64.ofInt o.min), false⟩ := fun fuel =>
    rangeFunc_unbounded o yield fuel (fun j _ => hy j) (fun j _ => hctx j)
      (fun j _ => by simp [atCeiling, hterm])
  have hsteps : ∀ fuel, steps (rangeFunc o yield fuel).events = List.range fuel := by
    intro fuel
    rw [hrun, steps_prefixEvents, List.range_eq_range']
  refine ⟨fun fuel => ⟨by rw [hrun], hsteps fuel⟩, ?_, ?_⟩
  · rw [hsteps, List.mem_range]
    exact Nat.lt_succ_self N
  · intro ctx opts hopts
    exact applyOpts_setters opts _ hopts

/-- C12 at the configuration of the test `range`, step 100. -/
theorem never_ends_witness :
    100 ∈ steps (rangeFunc
      (Exponential.config Background [WithMin (3 * Second), WithMax (12 * Second)])
      (fun _ => true) (100 + 1)).events :=
  (never_ends (Exponential.config Background [WithMin (3 * Second), WithMax (12 * Second)])
    (fun _ => true) 100 rfl (fun _ => rfl) (fun _ => rfl)).2.1

/-! ## The order of steps and waits -/

/-- The steps of any run of the loop from the counter `i` are `i, i+1, …` without
a gap. -/
theorem loop_steps_range (o : options) (yield : Nat → Bool) (mx : F64) (fuel i : Nat) (s : F64) :
    steps (rangeFunc.loop o yield mx fuel i s).events
      = List.range' i (steps (rangeFunc.loop o yield mx fuel i s).events).length := by
  induction fuel generalizing i s with
  | zero => simp [rangeFunc.loop, steps]
  | succ fuel ih =>
    rw [rangeFunc.loop]
    by_cases hy : yield i = true
    · by_cases hc : o.ctx.done i = true
      · simp [hy, hc, steps, List.range']
      · by_cases ht : (F64.eq s mx && o.terminate) = true
        · simp only [hy, hc, ht, if_true, Bool.false_eq_true, if_false, steps,
            List.length_cons, List.length_nil, List.range']
        · simp only [hy, hc, ht, if_true, Bool.false_eq_true, if_false, steps,
            List.length_cons, List.range']
          rw [← ih]
    · simp [hy, steps, List.range']

/-- In any run of the loop from the counter `i`, the event at an even position `2j` is
the step `i + j`. -/
theorem loop_getElem_even (o : options) (yield : Nat → Bool) (mx : F64) (fuel i : Nat)
    (s : F64) (j : Nat) (e : Event)
    (h : (rangeFunc.loop o yield mx fuel i s).events[2 * j]? = some e) :
    e = Event.step (i + j) := by
  induction fuel generalizing i s j with
  | zero => simp [rangeFunc.loop] at h
  | succ fuel ih =>
    rw [rangeFunc.loop] at h
    by_cases hy : yield i = true
    · by_cases hc : o.ctx.done i = true
      · simp only [hy, hc, if_true] at h
        cases j with
        | zero => simpa using h.symm
        | succ j => simp [show 2 * (j + 1) = 2 * j + 1 + 1 by omega] at h
      · by_cases ht : (F64.eq s mx && o.terminate) = true
        · simp only [hy, hc, ht, if_true, Bool.false_eq_true, if_false] at h
          cases j with
          | zero => simpa using h.symm
          | succ j =>
            rw [show 2 * (j + 1) = 2 * j + 1 + 1 by omega] at h
            simp only [List.getElem?_cons_succ] at h
            cases j with
            | zero => simpa using h.symm
            | succ j => simp [show 2 * (j + 1) = 2 * j + 1 + 1 by omega] at h
        · simp only [hy, hc, ht, if_true, Bool.false_eq_true, if_false] at h
          cases j with
          | zero => simpa using h.symm
          | succ j =>
            rw [show 2 * (j + 1) = 2 * j + 1 + 1 by omega] at h
            simp only [List.getElem?_cons_succ] at h
            rw [ih _ _ _ h]
            congr 1
            omega
    · simp only [hy, Bool.false_eq_true, if_false] at h
      cases j with
      | zero => simpa using h.symm
      | succ j => simp [show 2 * (j + 1) = 2 * j + 1 + 1 by omega] at h

/-- In any run of the loop from the delay `s`, the event at an odd position `2j + 1` is
the wait for the delay `s` updated `j` times. -/
theorem loop_getElem_odd (o : options) (yield : Nat → Bool) (fuel i : Nat)
    (s : F64) (j : Nat) (e : Event)
    (h : (rangeFunc.loop o yield (F64.ofInt o.max) fuel i s).events[2 * j + 1]? = some e) :
    e = Event.wait (F64.toInt64 ((advance o)^[j] s)) := by
  induction fuel generalizing i s j with
  | zero => simp [rangeFunc.loop] at h
  | succ fuel ih =>
    rw [rangeFunc.loop] at h
    by_cases hy : yield i = true
    · by_cases hc : o.ctx.done i = true
      · simp only [hy, hc, if_true] at h
        cases j with
        | zero => simpa using h.symm
        | succ j => simp [show 2 * (j + 1) + 1 = 2 * j + 1 + 1 + 1 by omega] at h
      · by_cases ht : (F64.eq s (F64.ofInt o.max) && o.terminate) = true
        · simp only [hy, hc, ht, if_true, Bool.false_eq_true, if_false] at h
          cases j with
          | zero => simpa using h.symm
          | succ j => simp [show 2 * (j + 1) + 1 = 2 * j + 1 + 1 + 1 by omega] at h
        · simp only [hy, hc, ht, if_true, Bool.false_eq_true, if_false] at h
          cases j with
          | zero => simpa using h.symm
          | succ j =>
            rw [show 2 * (j + 1) + 1 = 2 * j + 1 + 1 + 1 by omega] at h
            simp only [List.getElem?_cons_succ] at h
            rw [ih _ _ _ h, Function.iterate_succ_apply]
            rfl
    · simp only [hy, Bool.false_eq_true, if_false] at h
      simp at h

/-- C15: in every run of `rangeFunc`, whatever the configuration, the
decisions of the loop body, the outcomes of the selects and the bound, the
steps passed to the loop body are exactly `0, 1, …, n-1` in this order, `n`
their number, and steps and waits alternate: the event at position `2j` is
the step `j` and the event at position `2j+1` the wait after it, so exactly
one wait is requested between two consecutive steps, the final step of a
terminating ceiling included. -/
theorem steps_in_order (o : options) (yield : Nat → Bool) (fuel : Nat) :
    steps (rangeFunc o yield fuel).events
        = List.range (steps (rangeFunc o yield fuel).events).length
      ∧ (∀ j e, (rangeFunc o yield fuel).events[2 * j]? = some e → e = Event.step j)
      ∧ (∀ j e, (rangeFunc o yield fuel).events[2 * j + 1]? = some e
          → e = Event.wait (F64.toInt64 (delay o j))) := by
  refine ⟨?_, ?_, ?_⟩
  · rw [List.range_eq_range']
    exact loop_steps_range o yield _ fuel 0 _
  · intro j e h
    have := loop_getElem_even o yield _ fuel 0 _ j e h
    simpa using this
  · intro j e h
    exact loop_getElem_odd o yield fuel 0 _ j e h

/-- In any run of the loop from the delay `s`, the `j`-th wait is requested for the
delay `s` updated `j` times. -/
theorem loop_waits_getElem (o : options) (yield : Nat → Bool) (fuel i : Nat)
    (s : F64) (j : Nat) (d : Option Int)
    (h : (waits (rangeFunc.loop o yield (F64.ofInt o.max) fuel i s).events)[j]? = some d) :
    d = F64.toInt64 ((advance o)^[j] s) := by
  induction fuel generalizing i s j with
  | zero => simp [rangeFunc.loop, waits] at h
  | succ fuel ih =>
    rw [rangeFunc.loop] at h
    by_cases hy : yield i = true
    · by_cases hc : o.ctx.done i = true
      · simp only [hy, hc, if_true, waits] at h
        cases j with
        | zero => simpa using h.symm
        | succ j => simp at h
      · by_cases ht : (F64.eq s (F64.ofInt o.max) && o.terminate) = true
        · simp only [hy, hc, ht, if_true, Bool.false_eq_true, if_false, waits] at h
          cases j with
          | zero => simpa using h.symm
          | succ j => simp at h
        · simp only [hy, hc, ht, if_true, Bool.false_eq_true, if_false, waits] at h
          cases j with
          | zero => simpa using h.symm
          | succ j =>
            simp only [List.getElem?_cons_succ] at h
            rw [ih _ _ _ h, Function.iterate_succ_apply]
            rfl
    · simp only [hy, Bool.false_eq_true, if_false, waits] at h
      simp at h

/-- In any run of `rangeFunc`, the `j`-th wait is requested for the delay of the
iteration `j`. -/
theorem rangeFunc_waits_getElem (o : options) (yield : Nat → Bool) (fuel j : Nat)
    (d : Option Int) (h : (waits (rangeFunc o yield fuel).events)[j]? = some d) :
    d = F64.toInt64 (delay o j) :=
  loop_waits_getElem o yield fuel 0 _ j d h

/-- C16: when terminate is enabled and the wait after step `i` is requested,
is not cancelled, and was for a delay `s` with `s == max`, `rangeFunc` calls
the loop body once more, with step `i + 1`, and returns: no wait and no step
follows, and the run is the same whatever the loop body returns from that last
call (a body that differs from `yield` after step `i` only gives the same
run). -/
theorem final_step_at_ceiling (o : options) (yield : Nat → Bool) (i fuel : Nat)
    (hterm : o.terminate = true)
    (hw : i < (waits (rangeFunc o yield fuel).events).length)
    (hc : o.ctx.done i = false)
    (heq : F64.eq (delay o i) (F64.ofInt o.max) = true) :
    (rangeFunc o yield fuel).returned = true
      ∧ (rangeFunc o yield fuel).events
          = prefixEvents o i 0 (F64.ofInt o.min)
            ++ [Event.step i, Event.wait (F64.toInt64 (delay o i)), Event.step (i + 1)]
      ∧ steps (rangeFunc o yield fuel).events = List.range (i + 2)
      ∧ (waits (rangeFunc o yield fuel).events).length = i + 1
      ∧ ∀ yield2 : Nat → Bool, (∀ j, j ≤ i → yield2 j = yield j) →
          rangeFunc o yield2 fuel = rangeFunc o yield fuel := by
  obtain ⟨hy, hn, ht, hf⟩ := rangeFunc_wait_requested o yield fuel i hw
  have htop : atCeiling o i = true := by simp [atCeiling, heq, hterm]
  have hcs : ∀ j, j ≤ i → o.ctx.done j = false := by
    intro j hj
    rcases Nat.lt_or_ge j i with h | h
    · exact hn j h
    · rw [Nat.le_antisymm hj h]; exact hc
  have hrun := rangeFunc_ceiling o yield i fuel hy hcs ht htop hf
  refine ⟨by rw [hrun], by rw [hrun], ?_, ?_, ?_⟩
  · rw [hrun]
    simp only [steps_append, steps_prefixEvents, steps]
    rw [List.range_succ, List.range_succ, List.range_eq_range']
    simp
  · rw [hrun]
    simp only [waits_append, waits_prefixEvents, waits]
    simp
  · intro yield2 h2
    rw [hrun]
    exact rangeFunc_ceiling o yield2 i fuel (fun j hj => by rw [h2 j hj]; exact hy j hj) hcs ht
      htop hf

/-- C16 at the default configuration with terminate: the wait after step 12
is for one hour, the ceiling; step 13 follows and the run has returned, though
the body would continue. -/
theorem final_step_at_ceiling_witness :
    (rangeFunc (Exponential.config Background [WithTerminate true])
        (fun _ => true) 20).returned = true
      ∧ steps (rangeFunc (Exponential.config Background [WithTerminate true])
          (fun _ => true) 20).events = List.range (12 + 2)
      ∧ rangeFunc (Exponential.config Background [WithTerminate true])
          (fun j => decide (j ≤ 12)) 20
        = rangeFunc (Exponential.config Background [WithTerminate true]) (fun _ => true) 20 :=
  have h := final_step_at_ceiling (Exponential.config Background [WithTerminate true])
    (fun _ => true) 12 20 rfl (by decide) rfl (by decide)
  ⟨h.1, h.2.2.1, h.2.2.2.2 (fun j => decide (j ≤ 12)) (fun j hj => by simp [hj])⟩

/-! ## The order of float64 values -/

/-- The numerator over the exponent `e0` is the value scaled by `2^(-e0)`. -/
theorem F64.scaled_cast (neg : Bool) (m : Nat) (e e0 : Int) (h : e0 ≤ e) :
    ((F64.scaled neg m e e0 : Int) : ℚ) = F64.toRat (F64.fin neg m e) * (2 : ℚ) ^ (-e0) := by
  have hk : (((e - e0).toNat : Nat) : Int) = e - e0 := Int.toNat_of_nonneg (by omega)
  have hp : ((2 : ℚ) ^ (e - e0).toNat) = (2 : ℚ) ^ e * (2 : ℚ) ^ (-e0) := by
    rw [← zpow_natCast, hk, sub_eq_add_neg, zpow_add₀ (by norm_num)]
  cases neg
  · simp only [F64.scaled, F64.toRat, Bool.false_eq_true, if_false]
    push_cast
    rw [hp]; ring
  · simp only [F64.scaled, F64.toRat, if_true]
    push_cast
    rw [hp]; ring

/-- On finite values, `<` compares the rational values. -/
theorem F64.lt_fin (a b : Bool) (m1 m2 : Nat) (e1 e2 : Int) :
    F64.lt (F64.fin a m1 e1) (F64.fin b m2 e2)
      = decide (F64.toRat (F64.fin a m1 e1) < F64.toRat (F64.fin b m2 e2)) := by
  have hpos : (0 : ℚ) < (2 : ℚ) ^ (-(min e1 e2)) := by positivity
  simp only [F64.lt, decide_eq_decide]
  rw [← Int.cast_lt (R := ℚ), F64.scaled_cast a m1 e1 _ (min_le_left _ _),
    F64.scaled_cast b m2 e2 _ (min_le_right _ _)]
  exact mul_lt_mul_right hpos

/-- On finite values, `==` compares the rational values. -/
theorem F64.eq_fin (a b : Bool) (m1 m2 : Nat) (e1 e2 : Int) :
    F64.eq (F64.fin a m1 e1) (F64.fin b m2 e2)
      = decide (F64.toRat (F64.fin a m1 e1) = F64.toRat (F64.fin b m2 e2)) := by
  have hpos : (0 : ℚ) < (2 : ℚ) ^ (-(min e1 e2)) := by positivity
  simp only [F64.eq, decide_eq_decide]
  rw [← Int.cast_inj (α := ℚ), F64.scaled_cast a m1 e1 _ (min_le_left _ _),
    F64.scaled_cast b m2 e2 _ (min_le_right _ _)]
  exact mul_left_inj' (ne_of_gt hpos)

/-- The value of a nonnegative finite `float64`. -/
theorem F64.toRat_pos (q : Nat) (t : Int) :
    F64.toRat (F64.fin false q t) = (q : ℚ) * (2 : ℚ) ^ t := by
  simp [F64.toRat]

/-- The value of the canonical `float64` of a natural number is the number. -/
theorem F64.toRat_nat (n : Nat) (hn : 0 < n) (hlt : n < 2 ^ 53) :
    F64.toRat (F64.nat n) = (n : ℚ) := by
  have hL := log2floor_le n hn hlt
  rw [F64.nat, F64.toRat_pos]
  push_cast
  rw [mul_assoc, ← zpow_natCast, ← zpow_add₀ (by norm_num)]
  have : ((52 - log2floor n : Nat) : Int) + ((log2floor n : Int) - 52) = 0 := by omega
  rw [this, zpow_zero, mul_one]

/-- Dropping the low `sh` digits of `X` keeps the quotient at or above every
representable value `M * 2^eM` that `X * 2^e` is at or above. -/
theorem F64.quot_ge (X L sh M : Nat) (e t eM : Int) (g1 : 2 ^ L ≤ X) (hsh : t = e + sh)
    (hM : M < 2 ^ 53) (hcase : eM < t → L = 52 + sh)
    (h : (M : ℚ) * 2 ^ eM ≤ (X : ℚ) * 2 ^ e) :
    (M : ℚ) * 2 ^ eM ≤ ((X / 2 ^ sh : Nat) : ℚ) * 2 ^ t := by
  have h2 : (2 : ℚ) ≠ 0 := by norm_num
  have ht : (2 : ℚ) ^ t = 2 ^ e * 2 ^ sh := by
    rw [hsh, zpow_add₀ h2, zpow_natCast]
  have hpe : (0 : ℚ) < 2 ^ e := by positivity
  have hpt : (0 : ℚ) < 2 ^ t := by positivity
  rcases lt_or_le eM t with hlt | hge
  · have hL := hcase hlt
    have hq : 2 ^ 52 ≤ X / 2 ^ sh := by
      rw [Nat.le_div_iff_mul_le (by positivity), ← pow_add, ← hL]
      exact g1
    have hq' : ((2 : ℚ) ^ 52) ≤ ((X / 2 ^ sh : Nat) : ℚ) := by exact_mod_cast hq
    have hM' : (M : ℚ) ≤ 2 ^ 53 := by exact_mod_cast le_of_lt hM
    have hpow : (2 : ℚ) ^ eM ≤ 2 ^ (t - 1) := zpow_le_zpow_right₀ (by norm_num) (by omega)
    have ht1 : (2 : ℚ) ^ (t - 1) * 2 = 2 ^ t := by
      rw [sub_eq_add_neg, zpow_add₀ h2]
      simp
    calc (M : ℚ) * 2 ^ eM ≤ 2 ^ 53 * 2 ^ (t - 1) :=
          mul_le_mul hM' hpow (by positivity) (by positivity)
      _ = 2 ^ 52 * 2 ^ t := by rw [← ht1]; ring
      _ ≤ ((X / 2 ^ sh : Nat) : ℚ) * 2 ^ t := mul_le_mul_of_nonneg_right hq' (le_of_lt hpt)
  · obtain ⟨d, hd⟩ : ∃ d : Nat, eM = t + d := ⟨(eM - t).toNat, by omega⟩
    have heM : (2 : ℚ) ^ eM = 2 ^ e * 2 ^ sh * 2 ^ d := by
      rw [hd, zpow_add₀ h2, zpow_natCast, ht]
    have h3 : ((M * 2 ^ d * 2 ^ sh : Nat) : ℚ) ≤ (X : ℚ) := by
      have h4 : ((M : ℚ) * 2 ^ d * 2 ^ sh) * 2 ^ e ≤ (X : ℚ) * 2 ^ e := by
        calc ((M : ℚ) * 2 ^ d * 2 ^ sh) * 2 ^ e = (M : ℚ) * 2 ^ eM := by rw [heM]; ring
          _ ≤ (X : ℚ) * 2 ^ e := h
      have := le_of_mul_le_mul_right h4 hpe
      push_cast
      exact this
    have h5 : M * 2 ^ d * 2 ^ sh ≤ X := by exact_mod_cast h3
    have h6 : M * 2 ^ d ≤ X / 2 ^ sh := (Nat.le_div_iff_mul_le (by positivity)).mpr h5
    have h7 : ((M * 2 ^ d : Nat) : ℚ) ≤ ((X / 2 ^ sh : Nat) : ℚ) := by exact_mod_cast h6
    calc (M : ℚ) * 2 ^ eM = ((M * 2 ^ d : Nat) : ℚ) * 2 ^ t := by
          rw [heM, ht]; push_cast; ring
      _ ≤ ((X / 2 ^ sh : Nat) : ℚ) * 2 ^ t := mul_le_mul_of_nonneg_right h7 (le_of_lt hpt)

/-- Rounding never goes below a representable value that the exact value is at
or above: the result of rounding `X * 2^e ≥ M * 2^eM`, with `M < 2^53` and
`eM ≥ -1074`, is `+Inf` or a finite value in the binary64 format that is at or
above `M * 2^eM`. -/
theorem F64.round_ge (X : Nat) (e : Int) (M : Nat) (eM : Int) (hX : 0 < X)
    (hM : M < 2 ^ 53) (heM : -1074 ≤ eM) (h : (M : ℚ) * 2 ^ eM ≤ (X : ℚ) * 2 ^ e) :
    F64.round false X e = F64.inf false
      ∨ ∃ q : Nat, ∃ t : Int, F64.round false X e = F64.fin false q t ∧ q < 2 ^ 53
          ∧ -1074 ≤ t ∧ (M : ℚ) * 2 ^ eM ≤ (q : ℚ) * 2 ^ t := by
  have h2 : (2 : ℚ) ≠ 0 := by norm_num
  obtain ⟨g1, g2⟩ := log2floor_spec X hX
  have hX0 : X ≠ 0 := Nat.ne_of_gt hX
  have ht1 : e + (log2floor X : Int) - 52 ≤ max (e + (log2floor X : Int) - 52) (-1074) :=
    le_max_left _ _
  have ht2 : (-1074 : Int) ≤ max (e + (log2floor X : Int) - 52) (-1074) := le_max_right _ _
  have ht3 : max (e + (log2floor X : Int) - 52) (-1074) = e + (log2floor X : Int) - 52
      ∨ max (e + (log2floor X : Int) - 52) (-1074) = -1074 := by
    rcases le_total (e + (log2floor X : Int) - 52) (-1074) with hc | hc
    · right; exact max_eq_right hc
    · left; exact max_eq_left hc
  unfold F64.round
  simp only [hX0, if_false]
  generalize max (e + (log2floor X : Int) - 52) (-1074) = t at ht1 ht2 ht3 ⊢
  by_cases hte : t ≤ e
  · simp only [hte, if_true]
    by_cases hov : 971 < t
    · left; simp [hov]
    · right
      simp only [hov, if_false]
      obtain ⟨d, hd⟩ : ∃ d : Nat, e = t + d := ⟨(e - t).toNat, by omega⟩
      have hdn : (e - t).toNat = d := by omega
      refine ⟨X * 2 ^ d, t, by rw [hdn], ?_, ht2, ?_⟩
      · calc X * 2 ^ d < 2 ^ (log2floor X + 1) * 2 ^ d :=
              Nat.mul_lt_mul_of_pos_right g2 (by positivity)
          _ = 2 ^ (log2floor X + 1 + d) := by rw [← pow_add]
          _ ≤ 2 ^ 53 := Nat.pow_le_pow_right (by norm_num) (by omega)
      · have : ((X * 2 ^ d : Nat) : ℚ) * 2 ^ t = (X : ℚ) * 2 ^ e := by
          rw [hd, zpow_add₀ h2, zpow_natCast]; push_cast; ring
        rw [this]; exact h
  · simp only [hte, if_false]
    obtain ⟨sh, hsh⟩ : ∃ sh : Nat, t = e + sh := ⟨(t - e).toNat, by omega⟩
    have hshn : (t - e).toNat = sh := by omega
    have hkey := F64.quot_ge X (log2floor X) sh M e t eM g1 hsh hM (by intro hlt; omega) h
    have hq53 : X / 2 ^ sh < 2 ^ 53 := by
      rw [Nat.div_lt_iff_lt_mul (by positivity), ← pow_add]
      exact lt_of_lt_of_le g2 (Nat.pow_le_pow_right (by norm_num) (by omega))
    have hpt : (0 : ℚ) < 2 ^ t := by positivity
    rw [hshn]
    by_cases hup : 2 ^ (sh - 1) < X % 2 ^ sh
        ∨ (X % 2 ^ sh = 2 ^ (sh - 1) ∧ X / 2 ^ sh % 2 = 1)
    · simp only [hup, if_true]
      have hstep : (M : ℚ) * 2 ^ eM ≤ ((X / 2 ^ sh + 1 : Nat) : ℚ) * 2 ^ t := by
        refine le_trans hkey (mul_le_mul_of_nonneg_right ?_ (le_of_lt hpt))
        exact_mod_cast Nat.le_succ _
      by_cases h53 : X / 2 ^ sh + 1 = 2 ^ 53
      · simp only [h53, if_true]
        by_cases hov : 971 < t + 1
        · left; simp [hov]
        · right
          simp only [hov, if_false]
          refine ⟨2 ^ 52, t + 1, rfl, by norm_num, by omega, ?_⟩
          have : ((2 ^ 52 : Nat) : ℚ) * 2 ^ (t + 1) = ((X / 2 ^ sh + 1 : Nat) : ℚ) * 2 ^ t := by
            rw [h53, zpow_add₀ h2]; push_cast; ring
          rw [this]; exact hstep
      · simp only [h53, if_false]
        by_cases hov : 971 < t
        · left; simp [hov]
        · right
          simp only [hov, if_false]
          exact ⟨X / 2 ^ sh + 1, t, rfl, by omega, ht2, hstep⟩
    · simp only [hup, if_false, Nat.ne_of_lt hq53]
      by_cases hov : 971 < t
      · left; simp [hov]
      · right
        simp only [hov, if_false]
        exact ⟨X / 2 ^ sh, t, rfl, hq53, ht2, hkey⟩

/-- The value of the `float64` 1 is 1. -/
theorem F64.toRat_one : F64.toRat F64.one = 1 := by
  simp only [F64.one, F64.toRat]
  norm_num

/-- A `float64` that is at least 1 is `+Inf` or a finite value at least 1. -/
theorem F64.one_le_cases (m : F64) (h : F64.le F64.one m = true) :
    m = F64.inf false
      ∨ ∃ mm : Nat, ∃ em : Int, m = F64.fin false mm em ∧ (1 : ℚ) ≤ (mm : ℚ) * 2 ^ em := by
  cases m with
  | nan => simp [F64.le, F64.one, F64.lt, F64.eq] at h
  | inf a =>
    cases a
    · exact Or.inl rfl
    · simp [F64.le, F64.one, F64.lt, F64.eq] at h
  | fin b mm em =>
    right
    have h1 : (1 : ℚ) ≤ F64.toRat (F64.fin b mm em) := by
      simp only [F64.le, F64.one, F64.lt_fin, F64.eq_fin, Bool.or_eq_true,
        decide_eq_true_eq] at h
      have h0 := F64.toRat_one
      simp only [F64.one] at h0
      rw [h0] at h
      rcases h with h | h
      · exact le_of_lt h
      · exact le_of_eq h
    cases b
    · exact ⟨mm, em, rfl, by rwa [F64.toRat_pos] at h1⟩
    · exfalso
      simp only [F64.toRat, if_true] at h1
      have : (0 : ℚ) ≤ (mm : ℚ) * 2 ^ em := by positivity
      linarith

/-- Multiplying a positive finite value by a factor at least 1 never goes below a
representable value that the multiplicand is at or above. -/
theorem F64.mul_ge (q : Nat) (t : Int) (M : Nat) (eM : Int) (m : F64) (hq : 0 < q)
    (hM : M < 2 ^ 53) (heM : -1074 ≤ eM) (h : (M : ℚ) * 2 ^ eM ≤ (q : ℚ) * 2 ^ t)
    (hm : F64.le F64.one m = true) :
    F64.mul (F64.fin false q t) m = F64.inf false
      ∨ ∃ q2 : Nat, ∃ t2 : Int, F64.mul (F64.fin false q t) m = F64.fin false q2 t2
          ∧ q2 < 2 ^ 53 ∧ -1074 ≤ t2 ∧ (M : ℚ) * 2 ^ eM ≤ (q2 : ℚ) * 2 ^ t2 := by
  rcases F64.one_le_cases m hm with rfl | ⟨mm, em, rfl, h1⟩
  · left
    simp [F64.mul, Nat.ne_of_gt hq]
  · have hmm : 0 < mm := by
      rcases Nat.eq_zero_or_pos mm with h0 | h0
      · rw [h0] at h1; norm_num at h1
      · exact h0
    have hval : (M : ℚ) * 2 ^ eM ≤ ((q * mm : Nat) : ℚ) * 2 ^ (t + em) := by
      have hv : (0 : ℚ) ≤ (q : ℚ) * 2 ^ t := by positivity
      calc (M : ℚ) * 2 ^ eM ≤ (q : ℚ) * 2 ^ t := h
        _ = (q : ℚ) * 2 ^ t * 1 := by ring
        _ ≤ (q : ℚ) * 2 ^ t * ((mm : ℚ) * 2 ^ em) := mul_le_mul_of_nonneg_left h1 hv
        _ = ((q * mm : Nat) : ℚ) * 2 ^ (t + em) := by
          rw [zpow_add₀ (by norm_num)]; push_cast; ring
    simpa [F64.mul] using F64.round_ge (q * mm) (t + em) M eM (Nat.mul_pos hq hmm) hM heM hval

/-- The `float64` of a positive integer is `+Inf` or a finite value in the binary64
format that is at least 1. -/
theorem F64.ofInt_pos_cases (n : Int) (hn : 0 < n) :
    F64.ofInt n = F64.inf false
      ∨ ∃ q : Nat, ∃ t : Int, F64.ofInt n = F64.fin false q t ∧ 0 < q ∧ q < 2 ^ 53
          ∧ -1074 ≤ t ∧ (1 : ℚ) ≤ (q : ℚ) * 2 ^ t := by
  have hneg : decide (n < 0) = false := by simp; omega
  have hX : 0 < n.natAbs := by omega
  have h1 : ((1 : Nat) : ℚ) * 2 ^ (0 : Int) ≤ (n.natAbs : ℚ) * 2 ^ (0 : Int) := by
    simp only [zpow_zero, mul_one]
    exact_mod_cast hX
  rcases F64.round_ge n.natAbs 0 1 0 hX (by norm_num) (by norm_num) h1 with h | ⟨q, t, h, hq, ht, hv⟩
  · left; rw [F64.ofInt, hneg, h]
  · right
    refine ⟨q, t, by rw [F64.ofInt, hneg, h], ?_, hq, ht, by simpa using hv⟩
    rcases Nat.eq_zero_or_pos q with h0 | h0
    · rw [h0] at hv; norm_num at hv
    · exact h0

/-- A positive finite value is not `== 0`. -/
theorem F64.pos_ne_zero (q : Nat) (t : Int) (hq : 0 < q) :
    F64.eq (F64.fin false q t) (F64.fin false 0 (-1074)) = false := by
  rw [F64.eq_fin, decide_eq_false_iff_not, F64.toRat_pos, F64.toRat_pos]
  have : (0 : ℚ) < (q : ℚ) * 2 ^ t := by positivity
  intro h
  rw [h] at this
  simp at this

/-- The `math.Min` of a positive value `x` (finite or `+Inf`) and a finite value `y`
is `x` if `x < y` and `y` otherwise. -/
theorem math.Min_pos (x : F64) (qb : Nat) (tb : Int)
    (hx : x = F64.inf false ∨ ∃ q : Nat, ∃ t : Int, x = F64.fin false q t ∧ 0 < q) :
    math.Min x (F64.fin false qb tb)
      = if F64.lt x (F64.fin false qb tb) = true then x else F64.fin false qb tb := by
  rcases hx with rfl | ⟨q, t, rfl, hq⟩
  · simp [math.Min, F64.eq, F64.lt]
  · have h1 : ¬ (F64.fin false q t = F64.inf true ∨ F64.fin false qb tb = F64.inf true) := by
      simp
    have h2 : ¬ (F64.fin false q t = F64.nan ∨ F64.fin false qb tb = F64.nan) := by simp
    unfold math.Min
    simp only [h1, h2, if_false, F64.pos_ne_zero q t hq, Bool.false_and, Bool.false_eq_true]

/-- The value `math.Min x y` is `y` itself when `y`, positive, is at most `x`. -/
theorem math.Min_ge (x y : F64)
    (hy : y = F64.inf false ∨ ∃ qb : Nat, ∃ tb : Int, y = F64.fin false qb tb ∧ 0 < qb)
    (h : F64.le y x = true) : math.Min x y = y := by
  rcases hy with rfl | ⟨qb, tb, rfl, hqb⟩
  · cases x with
    | nan => simp [F64.le, F64.lt, F64.eq] at h
    | inf a =>
      cases a
      · simp [math.Min, F64.eq, F64.lt]
      · simp [F64.le, F64.lt, F64.eq] at h
    | fin a q t => simp [F64.le, F64.lt, F64.eq] at h
  · cases x with
    | nan => simp [F64.le, F64.lt, F64.eq] at h
    | inf a =>
      cases a
      · simp [math.Min, F64.eq, F64.lt]
      · simp [F64.le, F64.lt, F64.eq] at h
    | fin a q t =>
      have hle : F64.toRat (F64.fin false qb tb) ≤ F64.toRat (F64.fin a q t) := by
        simp only [F64.le, F64.lt_fin, F64.eq_fin, Bool.or_eq_true, decide_eq_true_eq] at h
        rcases h with h | h
        · exact le_of_lt h
        · exact le_of_eq h
      have hpos : (0 : ℚ) < F64.toRat (F64.fin false qb tb) := by
        rw [F64.toRat_pos]; positivity
      have hz : F64.eq (F64.fin a q t) (F64.fin false 0 (-1074)) = false := by
        rw [F64.eq_fin, decide_eq_false_iff_not]
        have h0 : F64.toRat (F64.fin false 0 (-1074)) = 0 := by simp [F64.toRat]
        rw [h0]
        intro hc
        linarith
      have hlt : F64.lt (F64.fin a q t) (F64.fin false qb tb) = false := by
        rw [F64.lt_fin, decide_eq_false_iff_not]
        exact not_lt.mpr hle
      have h1 : ¬ (F64.fin a q t = F64.inf true ∨ F64.fin false qb tb = F64.inf true) := by
        simp
      have h2 : ¬ (F64.fin a q t = F64.nan ∨ F64.fin false qb tb = F64.nan) := by simp
      unfold math.Min
      simp only [h1, h2, if_false, hz, Bool.false_and, Bool.false_eq_true, hlt]

/-- The conversion to `int64` of a nonnegative finite value below `2^63` is the
integer part of the value. -/
theorem F64.toInt64_pos (q : Nat) (t : Int) (h63 : (q : ℚ) * 2 ^ t < 2 ^ 63) :
    F64.toInt64 (F64.fin false q t) = some ⌊(q : ℚ) * 2 ^ t⌋ := by
  have h2 : (2 : ℚ) ≠ 0 := by norm_num
  have key : ∀ T : Nat, ⌊(q : ℚ) * 2 ^ t⌋ = (T : Int) →
      (if -(2 : Int) ^ 63 ≤ (T : Int) ∧ (T : Int) < (2 : Int) ^ 63 then some (T : Int) else none)
        = some ⌊(q : ℚ) * 2 ^ t⌋ := by
    intro T hT
    have h1 : ((T : Int) : ℚ) ≤ (q : ℚ) * 2 ^ t := by rw [← hT]; exact Int.floor_le _
    have h3 : ((T : Int) : ℚ) < 2 ^ 63 := lt_of_le_of_lt h1 h63
    have h4 : (T : Int) < (2 : Int) ^ 63 := by exact_mod_cast h3
    have h5 : -(2 : Int) ^ 63 ≤ (T : Int) := by
      have : (0 : Int) ≤ (T : Int) := Int.ofNat_nonneg T
      have : -(2 : Int) ^ 63 ≤ 0 := by norm_num
      omega
    rw [if_pos ⟨h5, h4⟩, hT]
  simp only [F64.toInt64, Bool.false_eq_true, if_false]
  by_cases ht : 0 ≤ t
  · simp only [ht, if_true]
    apply key
    obtain ⟨k, hk⟩ : ∃ k : Nat, t = k := ⟨t.toNat, by omega⟩
    have : (q : ℚ) * 2 ^ t = ((q * 2 ^ t.toNat : Nat) : ℚ) := by
      rw [hk]; push_cast; simp
    rw [this]
    exact Int.floor_natCast _
  · simp only [ht, if_false]
    apply key
    obtain ⟨k, hk⟩ : ∃ k : Nat, t = -(k : Int) := ⟨(-t).toNat, by omega⟩
    have hkn : (-t).toNat = k := by omega
    rw [hkn, Int.floor_eq_iff]
    have hD : (0 : ℚ) < 2 ^ k := by positivity
    have hv : (q : ℚ) * 2 ^ t = (q : ℚ) / 2 ^ k := by
      rw [hk, zpow_neg, zpow_natCast]; rfl
    have hdm := Nat.div_add_mod q (2 ^ k)
    have hml := Nat.mod_lt q (show 0 < 2 ^ k by positivity)
    have hdm' : ((2 : ℚ) ^ k) * ((q / 2 ^ k : Nat) : ℚ) + ((q % 2 ^ k : Nat) : ℚ) = (q : ℚ) := by
      exact_mod_cast hdm
    have hml' : ((q % 2 ^ k : Nat) : ℚ) < 2 ^ k := by exact_mod_cast hml
    have hr0 : (0 : ℚ) ≤ ((q % 2 ^ k : Nat) : ℚ) := Nat.cast_nonneg _
    rw [hv]
    constructor
    · rw [le_div_iff₀ hD, Int.cast_natCast]
      linarith
    · rw [div_lt_iff₀ hD, Int.cast_natCast]
      linarith

/-- The wait requested for a finite value between two integers below `2^63` is a
duration between them. -/
theorem F64.toInt64_between (q : Nat) (t : Int) (a b : Int) (ha : (a : ℚ) ≤ (q : ℚ) * 2 ^ t)
    (hb : (q : ℚ) * 2 ^ t ≤ (b : ℚ)) (hb63 : b < 2 ^ 63) :
    ∃ n : Int, F64.toInt64 (F64.fin false q t) = some n ∧ a ≤ n ∧ n ≤ b := by
  have h63 : (q : ℚ) * 2 ^ t < 2 ^ 63 := by
    have : (b : ℚ) < 2 ^ 63 := by exact_mod_cast hb63
    linarith
  refine ⟨_, F64.toInt64_pos q t h63, Int.le_floor.mpr ha, ?_⟩
  have : ((⌊(q : ℚ) * 2 ^ t⌋ : Int) : ℚ) ≤ (b : ℚ) := le_trans (Int.floor_le _) hb
  exact_mod_cast this

/-! ## The ceiling -/

/-- The `float64` of a positive integer, as `math.Min_ge` takes it. -/
theorem F64.ofInt_pos_shape (n : Int) (hn : 0 < n) :
    F64.ofInt n = F64.inf false
      ∨ ∃ qb : Nat, ∃ tb : Int, F64.ofInt n = F64.fin false qb tb ∧ 0 < qb := by
  rcases F64.ofInt_pos_cases n hn with h | ⟨q, t, h, hq, _, _, _⟩
  · exact Or.inl h
  · exact Or.inr ⟨q, t, h, hq⟩

/-- When the product `s * multiplier` is at least the ceiling, the next delay is the
ceiling itself. -/
theorem advance_of_ge (o : options) (hmax : 0 < o.max) (s : F64)
    (h : F64.le (F64.ofInt o.max) (F64.mul s o.multiplier) = true) :
    advance o s = F64.ofInt o.max :=
  math.Min_ge _ _ (F64.ofInt_pos_shape o.max hmax) h

/-- With a multiplier of at least 1, a delay equal to the ceiling multiplies to a
product that is at least the ceiling. -/
theorem mul_ge_ceiling (o : options) (hmax : 0 < o.max)
    (hm : F64.le F64.one o.multiplier = true) (s : F64)
    (hs : F64.eq s (F64.ofInt o.max) = true) :
    F64.le (F64.ofInt o.max) (F64.mul s o.multiplier) = true := by
  rcases F64.ofInt_pos_cases o.max hmax with hB | ⟨qb, tb, hB, hqb, hqb53, htb, _⟩
  · rw [hB] at hs ⊢
    have hsinf : s = F64.inf false := by
      cases s with
      | nan => simp [F64.eq] at hs
      | inf a => simpa [F64.eq] using hs
      | fin a q t => simp [F64.eq] at hs
    rw [hsinf]
    rcases F64.one_le_cases _ hm with hmul | ⟨mm, em, hmul, h1⟩
    · rw [hmul]; simp [F64.mul, F64.le, F64.lt, F64.eq]
    · have hmm : mm ≠ 0 := by
        rintro rfl
        norm_num at h1
      rw [hmul]; simp [F64.mul, hmm, F64.le, F64.lt, F64.eq]
  · rw [hB] at hs ⊢
    cases s with
    | nan => simp [F64.eq] at hs
    | inf a => simp [F64.eq] at hs
    | fin a q t =>
      rw [F64.eq_fin, decide_eq_true_eq, F64.toRat_pos qb tb] at hs
      have hBpos : (0 : ℚ) < (qb : ℚ) * 2 ^ tb := by positivity
      cases a with
      | true =>
        exfalso
        simp only [F64.toRat, if_true] at hs
        have : (0 : ℚ) ≤ (q : ℚ) * 2 ^ t := by positivity
        linarith
      | false =>
        rw [F64.toRat_pos] at hs
        have hq : 0 < q := by
          rcases Nat.eq_zero_or_pos q with h0 | h0
          · rw [h0, Nat.cast_zero, zero_mul] at hs
            rw [← hs] at hBpos
            exact absurd hBpos (lt_irrefl _)
          · exact h0
        rcases F64.mul_ge q t qb tb o.multiplier hq hqb53 htb (le_of_eq hs.symm) hm with
          h | ⟨q2, t2, h, _, _, hv⟩
        · rw [h]; simp [F64.le, F64.lt]
        · rw [h]
          simp only [F64.le, F64.lt_fin, F64.eq_fin, F64.toRat_pos, Bool.or_eq_true,
            decide_eq_true_eq]
          exact lt_or_eq_of_le hv

/-- With a multiplier of at least 1, a delay equal to the ceiling is followed by the
ceiling itself. -/
theorem advance_absorb (o : options) (hmax : 0 < o.max)
    (hm : F64.le F64.one o.multiplier = true) (s : F64)
    (hs : F64.eq s (F64.ofInt o.max) = true) : advance o s = F64.ofInt o.max :=
  advance_of_ge o hmax s (mul_ge_ceiling o hmax hm s hs)

/-- The ceiling, a positive finite or infinite value, is `==` to itself. -/
theorem F64.ofInt_eq_self (n : Int) : F64.eq (F64.ofInt n) (F64.ofInt n) = true := by
  cases h : F64.ofInt n with
  | nan =>
    exfalso
    simp only [F64.ofInt, F64.round] at h
    split_ifs at h
  | inf a => simp [F64.eq]
  | fin a q t => simp [F64.eq]

/-- With a multiplier of at least 1, once the delay is `== max` it is `float64(max)`
itself in every later iteration. -/
theorem delay_absorbed (o : options) (hmax : 0 < o.max)
    (hm : F64.le F64.one o.multiplier = true) (k : Nat)
    (hk : F64.eq (delay o k) (F64.ofInt o.max) = true) (j : Nat) (hj : k < j) :
    delay o j = F64.ofInt o.max := by
  obtain ⟨n, rfl⟩ : ∃ n, j = k + 1 + n := ⟨j - k - 1, by omega⟩
  induction n with
  | zero =>
    show delay o (k + 1) = _
    have : delay o (k + 1) = advance o (delay o k) := by
      simp only [delay, Function.iterate_succ_apply']
    rw [this]
    exact advance_absorb o hmax hm _ hk
  | succ n ih =>
    have : delay o (k + 1 + (n + 1)) = advance o (delay o (k + 1 + n)) := by
      simp only [delay, ← Nat.add_assoc, Function.iterate_succ_apply']
    rw [this]
    apply advance_absorb o hmax hm
    rw [ih (by omega)]
    exact F64.ofInt_eq_self _

/-- C18: for a multiplier of at least 1 and max > 0, the ceiling is absorbing:
once the delay `s` is `== max`, it is `float64(max)` itself, bit for bit, in
every later iteration, so in every run every later wait is requested for
`time.Duration(float64(max))`, which is max when max < 2^53; and whenever the
product `s * multiplier` is at least max, the next delay is `float64(max)`
itself. -/
theorem ceiling_absorbing (o : options) (hmax : 0 < o.max)
    (hm : F64.le F64.one o.multiplier = true) :
    (∀ k, F64.eq (delay o k) (F64.ofInt o.max) = true →
        ∀ j, k < j → delay o j = F64.ofInt o.max)
      ∧ (∀ k, F64.eq (delay o k) (F64.ofInt o.max) = true →
          ∀ (yield : Nat → Bool) (fuel j : Nat) (d : Option Int), k < j →
            (waits (rangeFunc o yield fuel).events)[j]? = some d →
            d = F64.toInt64 (F64.ofInt o.max) ∧ (o.max < 2 ^ 53 → d = some o.max))
      ∧ (∀ s, F64.le (F64.ofInt o.max) (F64.mul s o.multiplier) = true →
          advance o s = F64.ofInt o.max) := by
  have hstay := delay_absorbed o hmax hm
  refine ⟨hstay, ?_, fun s h => advance_of_ge o hmax s h⟩
  intro k hk yield fuel j d hj hd
  have h1 := rangeFunc_waits_getElem o yield fuel j d hd
  rw [hstay k hk j hj] at h1
  refine ⟨h1, fun h53 => ?_⟩
  obtain ⟨b, hb⟩ := Int.eq_ofNat_of_zero_le (le_of_lt hmax)
  have hb0 : 0 < b := by rw [hb] at hmax; exact_mod_cast hmax
  have hb53 : b < 2 ^ 53 := by rw [hb] at h53; exact_mod_cast h53
  rw [h1, hb, F64.ofInt_nat b hb0 hb53, F64.toInt64_nat b hb0 hb53]

/-- C18 at the configurations of `TestExponential`: the delay one hour, set at
step 12 of the default configuration, and the delay 12s, set at step 2 of the
configuration `range`, are still the delay at step 100. -/
theorem ceiling_absorbing_witness :
    delay (Exponential.config Background []) 100 = F64.ofInt Hour
      ∧ F64.toInt64 (delay (Exponential.config Background []) 100) = some 3600000000000
      ∧ delay (Exponential.config Background [WithMin (3 * Second), WithMax (12 * Second)]) 100
          = F64.ofInt (12 * Second) :=
  have h1 := (ceiling_absorbing (Exponential.config Background []) (by decide) (by decide)).1
    12 (by decide) 100 (by decide)
  have h2 := (ceiling_absorbing
    (Exponential.config Background [WithMin (3 * Second), WithMax (12 * Second)])
    (by decide) (by decide)).1 2 (by decide) 100 (by decide)
  ⟨h1, by rw [h1]; decide, h2⟩

/-! ## Bounds and monotonicity of the delay -/

/-- The canonical mantissa of a natural number below `2^53` is below `2^53`. -/
theorem F64.nat_mantissa_lt (b : Nat) (hb : 0 < b) :
    b * 2 ^ (52 - log2floor b) < 2 ^ 53 ∨ 52 < log2floor b := by
  obtain ⟨_, g2⟩ := log2floor_spec b hb
  rcases Nat.lt_or_ge 52 (log2floor b) with h | h
  · exact Or.inr h
  · left
    calc b * 2 ^ (52 - log2floor b) < 2 ^ (log2floor b + 1) * 2 ^ (52 - log2floor b) :=
          Nat.mul_lt_mul_of_pos_right g2 (by positivity)
      _ = 2 ^ 53 := by rw [← pow_add]; congr 1; omega

/-- The bounds of a configuration with 0 < min ≤ max < 2^53, as natural numbers. -/
theorem bounds_nat (o : options) (hmin : 0 < o.min) (hmax : o.min ≤ o.max)
    (h53 : o.max < 2 ^ 53) :
    ∃ a b : Nat, o.min = (a : Int) ∧ o.max = (b : Int) ∧ 0 < a ∧ a ≤ b ∧ b < 2 ^ 53 := by
  obtain ⟨a, ha⟩ := Int.eq_ofNat_of_zero_le (le_of_lt hmin)
  obtain ⟨b, hb⟩ := Int.eq_ofNat_of_zero_le (le_trans (le_of_lt hmin) hmax)
  refine ⟨a, b, ha, hb, ?_, ?_, ?_⟩
  · rw [ha] at hmin; exact_mod_cast hmin
  · rw [ha, hb] at hmax; exact_mod_cast hmax
  · rw [hb] at h53; exact_mod_cast h53

/-- The conversion of a natural number `X` with leading digit at position `52 + sh`,
`sh ≥ 1`: the low `sh` digits are dropped and the quotient is rounded to nearest,
ties to even. -/
theorem F64.round_nat_large (X sh : Nat) (hL : log2floor X = 52 + (sh + 1)) (hsh : sh < 900) :
    F64.round false X 0
      = if 2 ^ sh < X % 2 ^ (sh + 1) ∨ (X % 2 ^ (sh + 1) = 2 ^ sh ∧ X / 2 ^ (sh + 1) % 2 = 1) then
          (if X / 2 ^ (sh + 1) + 1 = 2 ^ 53 then F64.fin false (2 ^ 52) ((sh : Int) + 1 + 1)
            else F64.fin false (X / 2 ^ (sh + 1) + 1) ((sh : Int) + 1))
        else F64.fin false (X / 2 ^ (sh + 1)) ((sh : Int) + 1) := by
  have hX : X ≠ 0 := by
    rintro rfl
    have : log2floor 0 = 0 := by decide
    omega
  obtain ⟨g1, g2⟩ := log2floor_spec X (Nat.pos_of_ne_zero hX)
  have hq53 : X / 2 ^ (sh + 1) < 2 ^ 53 := by
    rw [Nat.div_lt_iff_lt_mul (by positivity), ← pow_add]
    exact lt_of_lt_of_le g2 (Nat.pow_le_pow_right (by norm_num) (by omega))
  have ht : max ((0 : Int) + (log2floor X : Int) - 52) (-1074) = (sh : Int) + 1 := by
    rw [hL]; push_cast
    rw [max_eq_left (by omega)]; omega
  have h1 : ¬ ((sh : Int) + 1 ≤ 0) := by omega
  have h3 : ((sh : Int) + 1 - 0).toNat = sh + 1 := by omega
  have h4 : ¬ ((971 : Int) < (sh : Int) + 1) := by omega
  have h5 : ¬ ((971 : Int) < (sh : Int) + 1 + 1) := by omega
  unfold F64.round
  simp only [hX, if_false, ht, h1, h3, h4, h5, Nat.add_sub_cancel]
  by_cases hup : 2 ^ sh < X % 2 ^ (sh + 1) ∨ (X % 2 ^ (sh + 1) = 2 ^ sh ∧ X / 2 ^ (sh + 1) % 2 = 1)
  · simp only [hup, if_true]
  · simp only [hup, if_false, Nat.ne_of_lt hq53]

/-- The `float64` of a positive integer below `2^63` is finite. -/
theorem F64.ofInt_finite (n : Nat) (hn : 0 < n) (h63 : n < 2 ^ 63) :
    ∃ q : Nat, ∃ t : Int, F64.ofInt (n : Int) = F64.fin false q t ∧ 0 < q ∧ q < 2 ^ 53
      ∧ -1074 ≤ t ∧ (1 : ℚ) ≤ (q : ℚ) * 2 ^ t := by
  rcases F64.ofInt_pos_cases (n : Int) (by exact_mod_cast hn) with h | h
  · exfalso
    obtain ⟨g1, _⟩ := log2floor_spec n hn
    have hL : log2floor n < 63 :=
      (Nat.pow_lt_pow_iff_right (by norm_num : 1 < 2)).mp (lt_of_le_of_lt g1 h63)
    have hneg : decide ((n : Int) < 0) = false := by simp
    have ht : max ((0 : Int) + (log2floor n : Int) - 52) (-1074) ≤ 10 := by
      apply max_le <;> omega
    simp only [F64.ofInt, hneg, Int.natAbs_ofNat, F64.round, Nat.ne_of_gt hn, if_false] at h
    generalize max ((0 : Int) + (log2floor n : Int) - 52) (-1074) = t at ht h
    have h971 : ¬ (971 : Int) < t := by omega
    have h972 : ¬ (971 : Int) < t + 1 := by omega
    simp only [h971, h972, if_false] at h
    split_ifs at h
  · exact h

/-- The conversion `float64(n)` of a natural number is its rounding. -/
theorem F64.ofInt_natCast (n : Nat) : F64.ofInt (n : Int) = F64.round false n 0 := by
  have hneg : decide ((n : Int) < 0) = false := by simp
  rw [F64.ofInt, hneg, Int.natAbs_ofNat]

/-- The conversion `float64(n)` is monotone on the positive `int64`: for
`0 < a ≤ b < 2^63` both `float64` are finite values in the binary64 format and
`float64(a) ≤ float64(b)`. -/
theorem F64.ofInt_mono (a b : Nat) (ha : 0 < a) (hab : a ≤ b) (hb63 : b < 2 ^ 63) :
    ∃ qa : Nat, ∃ ta : Int, ∃ qb : Nat, ∃ tb : Int,
      F64.ofInt (a : Int) = F64.fin false qa ta ∧ F64.ofInt (b : Int) = F64.fin false qb tb
        ∧ (0 < qa ∧ qa < 2 ^ 53 ∧ -1074 ≤ ta) ∧ (0 < qb ∧ qb < 2 ^ 53 ∧ -1074 ≤ tb)
        ∧ (qa : ℚ) * 2 ^ ta ≤ (qb : ℚ) * 2 ^ tb := by
  have hb : 0 < b := lt_of_lt_of_le ha hab
  obtain ⟨qa, ta, hA, hqa, hqa53, hta, _⟩ := F64.ofInt_finite a ha (lt_of_le_of_lt hab hb63)
  obtain ⟨qb, tb, hB, hqb, hqb53, htb, _⟩ := F64.ofInt_finite b hb hb63
  refine ⟨qa, ta, qb, tb, hA, hB, ⟨hqa, hqa53, hta⟩, ⟨hqb, hqb53, htb⟩, ?_⟩
  by_cases h : (qa : ℚ) * 2 ^ ta ≤ (b : ℚ)
  · have h' : (qa : ℚ) * 2 ^ ta ≤ (b : ℚ) * 2 ^ (0 : Int) := by simpa using h
    rcases F64.round_ge b 0 qa ta hb hqa53 hta h' with hr | ⟨q, t, hr, _, _, hv⟩
    · rw [F64.ofInt_natCast, hr] at hB
      exact absurd hB (by simp)
    · rw [F64.ofInt_natCast, hr] at hB
      injection hB with _ h1 h2
      rw [← h1, ← h2]
      exact hv
  · have two_ne : (2 : ℚ) ≠ 0 := by norm_num
    -- `a` is at least `2^53`, for a smaller one is converted exactly
    have ha53 : 2 ^ 53 ≤ a := by
      by_contra hlt
      have hlt' : a < 2 ^ 53 := Nat.lt_of_not_le hlt
      have hv := F64.toRat_nat a ha hlt'
      rw [← F64.ofInt_nat a ha hlt', hA, F64.toRat_pos] at hv
      apply h
      rw [hv]
      exact_mod_cast hab
    obtain ⟨g1, g2⟩ := log2floor_spec a ha
    have hL53 : 53 ≤ log2floor a := by
      have : 53 < log2floor a + 1 :=
        (Nat.pow_lt_pow_iff_right (by norm_num : 1 < 2)).mp (lt_of_le_of_lt ha53 g2)
      omega
    have hL63 : log2floor a < 63 :=
      (Nat.pow_lt_pow_iff_right (by norm_num : 1 < 2)).mp
        (lt_of_le_of_lt g1 (lt_of_le_of_lt hab hb63))
    obtain ⟨sh, hsh⟩ : ∃ sh, log2floor a = 52 + (sh + 1) := ⟨log2floor a - 53, by omega⟩
    have hra := F64.round_nat_large a sh hsh (by omega)
    rw [← F64.ofInt_natCast, hA] at hra
    have hD : 0 < 2 ^ (sh + 1) := by positivity
    have hdma := Nat.div_add_mod a (2 ^ (sh + 1))
    have hpow : (2 : ℚ) ^ ((sh : Int) + 1) = ((2 ^ (sh + 1) : Nat) : ℚ) := by
      push_cast
      rw [← zpow_natCast]
      norm_cast
    by_cases hup : 2 ^ sh < a % 2 ^ (sh + 1)
        ∨ (a % 2 ^ (sh + 1) = 2 ^ sh ∧ a / 2 ^ (sh + 1) % 2 = 1)
    · rw [if_pos hup] at hra
      -- the value of `float64(a)` is `(q + 1) * 2^(sh+1)`
      have hva : (qa : ℚ) * 2 ^ ta = (((a / 2 ^ (sh + 1) + 1) * 2 ^ (sh + 1) : Nat) : ℚ) := by
        by_cases h53 : a / 2 ^ (sh + 1) + 1 = 2 ^ 53
        · rw [if_pos h53] at hra
          injection hra with _ e1 e2
          rw [e1, e2, h53, zpow_add₀ two_ne, hpow]
          push_cast
          ring
        · rw [if_neg h53] at hra
          injection hra with _ e1 e2
          rw [e1, e2, hpow]
          push_cast
          ring
      by_cases hble : (a / 2 ^ (sh + 1) + 1) * 2 ^ (sh + 1) ≤ b
      · exfalso
        apply h
        rw [hva]
        exact_mod_cast hble
      · -- `b` is rounded like `a`
        have hblt : b < (a / 2 ^ (sh + 1) + 1) * 2 ^ (sh + 1) := Nat.lt_of_not_le hble
        have hlo : a / 2 ^ (sh + 1) * 2 ^ (sh + 1) ≤ b :=
          le_trans (Nat.div_mul_le_self a _) hab
        have hq53 : a / 2 ^ (sh + 1) < 2 ^ 53 := by
          rw [Nat.div_lt_iff_lt_mul hD, ← pow_add]
          exact lt_of_lt_of_le g2 (Nat.pow_le_pow_right (by norm_num) (by omega))
        have hbq : b / 2 ^ (sh + 1) = a / 2 ^ (sh + 1) := Nat.div_eq_of_lt_le hlo hblt
        have hLb : log2floor b = 52 + (sh + 1) := by
          apply log2floor_unique
          · rw [← hsh]; exact le_trans g1 hab
          · calc b < (a / 2 ^ (sh + 1) + 1) * 2 ^ (sh + 1) := hblt
              _ ≤ 2 ^ 53 * 2 ^ (sh + 1) := Nat.mul_le_mul_right _ (by omega)
              _ = 2 ^ (52 + (sh + 1) + 1) := by rw [← pow_add]; congr 1; omega
        have hdmb := Nat.div_add_mod b (2 ^ (sh + 1))
        rw [hbq] at hdmb
        have hrab : a % 2 ^ (sh + 1) ≤ b % 2 ^ (sh + 1) := by
          generalize 2 ^ (sh + 1) * (a / 2 ^ (sh + 1)) = c at hdma hdmb
          omega
        have hupb : 2 ^ sh < b % 2 ^ (sh + 1)
            ∨ (b % 2 ^ (sh + 1) = 2 ^ sh ∧ b / 2 ^ (sh + 1) % 2 = 1) := by
          rw [hbq]
          rcases hup with u1 | ⟨u1, u2⟩
          · exact Or.inl (lt_of_lt_of_le u1 hrab)
          · rcases Nat.eq_or_lt_of_le hrab with u3 | u3
            · exact Or.inr ⟨by rw [← u3, u1], u2⟩
            · exact Or.inl (by rw [← u1]; exact u3)
        have hrb := F64.round_nat_large b sh hLb (by omega)
        rw [← F64.ofInt_natCast, hB, if_pos hupb, hbq, ← hra] at hrb
        injection hrb with _ e1 e2
        rw [e1, e2]
    · exfalso
      apply h
      rw [if_neg hup] at hra
      injection hra with _ e1 e2
      rw [e1, e2, hpow]
      have : a / 2 ^ (sh + 1) * 2 ^ (sh + 1) ≤ b := le_trans (Nat.div_mul_le_self a _) hab
      exact_mod_cast this

/-- The truncation computed by the conversion to `int64` is the integer part of the
value. -/
theorem F64.trunc_floor (q : Nat) (t : Int) :
    (((if 0 ≤ t then q * 2 ^ t.toNat else q / 2 ^ (-t).toNat : Nat) : Nat) : Int)
      = ⌊(q : ℚ) * 2 ^ t⌋ := by
  by_cases ht : 0 ≤ t
  · simp only [ht, if_true]
    obtain ⟨k, hk⟩ : ∃ k : Nat, t = k := ⟨t.toNat, by omega⟩
    have : (q : ℚ) * 2 ^ t = ((q * 2 ^ t.toNat : Nat) : ℚ) := by
      rw [hk]; push_cast; simp
    rw [this]
    exact (Int.floor_natCast _).symm
  · simp only [ht, if_false]
    obtain ⟨k, hk⟩ : ∃ k : Nat, t = -(k : Int) := ⟨(-t).toNat, by omega⟩
    have hkn : (-t).toNat = k := by omega
    rw [hkn, eq_comm, Int.floor_eq_iff]
    have hD : (0 : ℚ) < 2 ^ k := by positivity
    have hv : (q : ℚ) * 2 ^ t = (q : ℚ) / 2 ^ k := by
      rw [hk, zpow_neg, zpow_natCast]; rfl
    have hdm := Nat.div_add_mod q (2 ^ k)
    have hml := Nat.mod_lt q (show 0 < 2 ^ k by positivity)
    have hdm' : ((2 : ℚ) ^ k) * ((q / 2 ^ k : Nat) : ℚ) + ((q % 2 ^ k : Nat) : ℚ) = (q : ℚ) := by
      exact_mod_cast hdm
    have hml' : ((q % 2 ^ k : Nat) : ℚ) < 2 ^ k := by exact_mod_cast hml
    have hr0 : (0 : ℚ) ≤ ((q % 2 ^ k : Nat) : ℚ) := Nat.cast_nonneg _
    rw [hv]
    constructor
    · rw [le_div_iff₀ hD, Int.cast_natCast]
      linarith
    · rw [div_lt_iff₀ hD, Int.cast_natCast]
      linarith

/-- A conversion to `int64` of a nonnegative finite value that is in range yields
the integer part of the value. -/
theorem F64.toInt64_some (q : Nat) (t : Int) (n : Int)
    (h : F64.toInt64 (F64.fin false q t) = some n) : n = ⌊(q : ℚ) * 2 ^ t⌋ := by
  rw [← F64.trunc_floor]
  simp only [F64.toInt64, Bool.false_eq_true, if_false] at h
  split_ifs at h with h1 h2 h3
  · rw [if_pos h1]; exact (Option.some.inj h).symm
  · rw [if_neg h1]; exact (Option.some.inj h).symm

/-- One update of a delay that is a positive finite value at most the ceiling, with a
multiplier of at least 1: the next delay is again such a value, and it is not
smaller. -/
theorem advance_bounds (o : options) (qb : Nat) (tb : Int)
    (hB : F64.ofInt o.max = F64.fin false qb tb) (hqb : 0 < qb) (hqb53 : qb < 2 ^ 53)
    (htb : -1074 ≤ tb) (hm : F64.le F64.one o.multiplier = true)
    (q : Nat) (t : Int) (hq : 0 < q) (hq53 : q < 2 ^ 53) (ht : -1074 ≤ t)
    (hv : (q : ℚ) * 2 ^ t ≤ (qb : ℚ) * 2 ^ tb) :
    ∃ q2 : Nat, ∃ t2 : Int, advance o (F64.fin false q t) = F64.fin false q2 t2
      ∧ 0 < q2 ∧ q2 < 2 ^ 53 ∧ -1074 ≤ t2
      ∧ (q : ℚ) * 2 ^ t ≤ (q2 : ℚ) * 2 ^ t2 ∧ (q2 : ℚ) * 2 ^ t2 ≤ (qb : ℚ) * 2 ^ tb := by
  have hvpos : (0 : ℚ) < (q : ℚ) * 2 ^ t := by positivity
  rw [advance, hB]
  rcases F64.mul_ge q t q t o.multiplier hq hq53 ht (le_refl _) hm with
    h | ⟨q2, t2, h, hq2, ht2, hv2⟩
  · rw [h, math.Min_pos _ _ _ (Or.inl rfl)]
    simp only [F64.lt, Bool.false_eq_true, if_false]
    exact ⟨_, _, rfl, hqb, hqb53, htb, hv, le_refl _⟩
  · have hq2pos : 0 < q2 := by
      rcases Nat.eq_zero_or_pos q2 with h0 | h0
      · rw [h0, Nat.cast_zero, zero_mul] at hv2
        exact absurd (lt_of_lt_of_le hvpos hv2) (lt_irrefl _)
      · exact h0
    rw [h, math.Min_pos _ _ _ (Or.inr ⟨q2, t2, rfl, hq2pos⟩)]
    by_cases hlt : F64.lt (F64.fin false q2 t2) (F64.fin false qb tb) = true
    · rw [if_pos hlt]
      rw [F64.lt_fin, decide_eq_true_eq, F64.toRat_pos, F64.toRat_pos] at hlt
      exact ⟨q2, t2, rfl, hq2pos, hq2, ht2, hv2, le_of_lt hlt⟩
    · rw [if_neg hlt]
      exact ⟨_, _, rfl, hqb, hqb53, htb, hv, le_refl _⟩

/-- With 0 < min ≤ max < 2^63 and a multiplier of at least 1, the delay of every
iteration is a positive finite value, at least `float64(min)`, at most the
delay of the next iteration, which is at most `float64(max)`. -/
theorem delay_bounds (o : options) (hmin : 0 < o.min) (hmax : o.min ≤ o.max)
    (h63 : o.max < 2 ^ 63) (hm : F64.le F64.one o.multiplier = true) (k : Nat) :
    ∃ q : Nat, ∃ t : Int, ∃ q2 : Nat, ∃ t2 : Int,
      delay o k = F64.fin false q t ∧ delay o (k + 1) = F64.fin false q2 t2
        ∧ F64.toRat (F64.ofInt o.min) ≤ (q : ℚ) * 2 ^ t
        ∧ (q : ℚ) * 2 ^ t ≤ (q2 : ℚ) * 2 ^ t2
        ∧ (q2 : ℚ) * 2 ^ t2 ≤ F64.toRat (F64.ofInt o.max) := by
  obtain ⟨a, ha⟩ := Int.eq_ofNat_of_zero_le (le_of_lt hmin)
  obtain ⟨b, hb⟩ := Int.eq_ofNat_of_zero_le (le_trans (le_of_lt hmin) hmax)
  have ha0 : 0 < a := by rw [ha] at hmin; exact_mod_cast hmin
  have hab : a ≤ b := by rw [ha, hb] at hmax; exact_mod_cast hmax
  have hb63 : b < 2 ^ 63 := by rw [hb] at h63; exact_mod_cast h63
  obtain ⟨qa, ta, qb, tb, hA, hB, ⟨hqa, hqa53, hta⟩, ⟨hqb, hqb53, htb⟩, hAB⟩ :=
    F64.ofInt_mono a b ha0 hab hb63
  rw [← ha] at hA
  rw [← hb] at hB
  rw [hA, hB, F64.toRat_pos, F64.toRat_pos]
  have hinv : ∃ q : Nat, ∃ t : Int, delay o k = F64.fin false q t ∧ 0 < q ∧ q < 2 ^ 53
      ∧ -1074 ≤ t ∧ (qa : ℚ) * 2 ^ ta ≤ (q : ℚ) * 2 ^ t
      ∧ (q : ℚ) * 2 ^ t ≤ (qb : ℚ) * 2 ^ tb := by
    induction k with
    | zero => exact ⟨qa, ta, hA, hqa, hqa53, hta, le_refl _, hAB⟩
    | succ k ih =>
      obtain ⟨q, t, hd, hq, hq53, ht, hva, hvb⟩ := ih
      obtain ⟨q2, t2, h2, hq2, hq253, ht2, hv1, hv2⟩ :=
        advance_bounds o qb tb hB hqb hqb53 htb hm q t hq hq53 ht hvb
      have hstep : delay o (k + 1) = advance o (delay o k) := by
        simp only [delay, Function.iterate_succ_apply']
      exact ⟨q2, t2, by rw [hstep, hd, h2], hq2, hq253, ht2, le_trans hva hv1, hv2⟩
  obtain ⟨q, t, hd, hq, hq53, ht, hva, hvb⟩ := hinv
  obtain ⟨q2, t2, h2, _, _, _, hv1, hv2⟩ :=
    advance_bounds o qb tb hB hqb hqb53 htb hm q t hq hq53 ht hvb
  have hstep : delay o (k + 1) = advance o (delay o k) := by
    simp only [delay, Function.iterate_succ_apply']
  exact ⟨q, t, q2, t2, hd, by rw [hstep, hd, h2], hva, hv1, hv2⟩

/-- The values of `float64(min)` and `float64(max)` are min and max when
0 < min ≤ max < 2^53. -/
theorem toRat_bounds_exact (o : options) (hmin : 0 < o.min) (hmax : o.min ≤ o.max)
    (h53 : o.max < 2 ^ 53) :
    F64.toRat (F64.ofInt o.min) = (o.min : ℚ) ∧ F64.toRat (F64.ofInt o.max) = (o.max : ℚ) := by
  obtain ⟨a, b, ha, hb, ha0, hab, hb53⟩ := bounds_nat o hmin hmax h53
  have hb0 : 0 < b := lt_of_lt_of_le ha0 hab
  have ha53 : a < 2 ^ 53 := lt_of_le_of_lt hab hb53
  rw [ha, hb, F64.ofInt_nat a ha0 ha53, F64.ofInt_nat b hb0 hb53, F64.toRat_nat a ha0 ha53,
    F64.toRat_nat b hb0 hb53]
  exact ⟨by norm_cast, by norm_cast⟩

/-- On finite values, `<=` compares the rational values. -/
theorem F64.le_fin (a b : Bool) (m1 m2 : Nat) (e1 e2 : Int) :
    F64.le (F64.fin a m1 e1) (F64.fin b m2 e2)
      = decide (F64.toRat (F64.fin a m1 e1) ≤ F64.toRat (F64.fin b m2 e2)) := by
  rw [F64.le, F64.lt_fin, F64.eq_fin, ← Bool.decide_or, decide_eq_decide]
  exact le_iff_lt_or_eq.symm

/-- C13, as stated, fails: with min = 2ns, max = 10ns and the multiplier 0.5
(min > 0, max ≥ min, multiplier > 0), the delay of the second wait is 1ns,
below min. -/
theorem delay_within_bounds_counterexample :
    (0 < halvingConfig.min ∧ halvingConfig.min ≤ halvingConfig.max
        ∧ F64.lt (F64.ofInt 0) halvingConfig.multiplier = true)
      ∧ F64.toRat halvingConfig.multiplier = 1 / 2
      ∧ delay halvingConfig 1 = F64.ofInt 1
      ∧ F64.lt (delay halvingConfig 1) (F64.ofInt halvingConfig.min) = true
      ∧ waits (rangeFunc halvingConfig (fun _ => true) 2).events = [some 2, some 1] := by
  refine ⟨by decide, ?_, by decide, by decide, by decide⟩
  simp only [halvingConfig, F64.toRat]
  norm_num

/-- C13, amended: for every configuration with 0 < min ≤ max (an `int64`, so
max < 2^63) and a multiplier of at least 1 (any `float64`, `+Inf` included),
the delay `s` is in every iteration a finite value with
`float64(min) ≤ s ≤ float64(max)`; when max < 2^53 these bounds are min and
max themselves, and in every run every wait is requested for a duration
between min and max. -/
theorem delay_within_bounds (o : options) (hmin : 0 < o.min) (hmax : o.min ≤ o.max)
    (h63 : o.max < 2 ^ 63) (hm : F64.le F64.one o.multiplier = true) :
    (∀ k, (∃ q : Nat, ∃ t : Int, delay o k = F64.fin false q t)
        ∧ F64.le (F64.ofInt o.min) (delay o k) = true
        ∧ F64.le (delay o k) (F64.ofInt o.max) = true)
      ∧ (o.max < 2 ^ 53 →
          (∀ k, (o.min : ℚ) ≤ F64.toRat (delay o k) ∧ F64.toRat (delay o k) ≤ (o.max : ℚ))
            ∧ ∀ (yield : Nat → Bool) (fuel j : Nat) (d : Option Int),
                (waits (rangeFunc o yield fuel).events)[j]? = some d →
                ∃ n : Int, d = some n ∧ o.min ≤ n ∧ n ≤ o.max) := by
  obtain ⟨a, ha⟩ := Int.eq_ofNat_of_zero_le (le_of_lt hmin)
  obtain ⟨b, hb⟩ := Int.eq_ofNat_of_zero_le (le_trans (le_of_lt hmin) hmax)
  have ha0 : 0 < a := by rw [ha] at hmin; exact_mod_cast hmin
  have hab : a ≤ b := by rw [ha, hb] at hmax; exact_mod_cast hmax
  have hb63 : b < 2 ^ 63 := by rw [hb] at h63; exact_mod_cast h63
  obtain ⟨qa, ta, qb, tb, hA, hB, _, _, _⟩ := F64.ofInt_mono a b ha0 hab hb63
  rw [← ha] at hA
  rw [← hb] at hB
  constructor
  · intro k
    obtain ⟨q, t, q2, t2, hd, _, hv1, hv2, hv3⟩ := delay_bounds o hmin hmax h63 hm k
    refine ⟨⟨q, t, hd⟩, ?_, ?_⟩
    · rw [hd, hA, F64.le_fin, decide_eq_true_eq, F64.toRat_pos q t, ← hA]
      exact hv1
    · rw [hd, hB, F64.le_fin, decide_eq_true_eq, F64.toRat_pos q t, ← hB]
      exact le_trans hv2 hv3
  · intro h53
    obtain ⟨e1, e2⟩ := toRat_bounds_exact o hmin hmax h53
    constructor
    · intro k
      obtain ⟨q, t, q2, t2, hd, _, hv1, hv2, hv3⟩ := delay_bounds o hmin hmax h63 hm k
      rw [hd, F64.toRat_pos, ← e1, ← e2]
      exact ⟨hv1, le_trans hv2 hv3⟩
    · intro yield fuel j d hd
      obtain ⟨q, t, q2, t2, hdel, _, hv1, hv2, hv3⟩ := delay_bounds o hmin hmax h63 hm j
      rw [rangeFunc_waits_getElem o yield fuel j d hd, hdel]
      exact F64.toInt64_between q t o.min o.max (by rw [← e1]; exact hv1)
        (by rw [← e2]; exact le_trans hv2 hv3) h63

/-- C13, amended, at the configuration of the test `multiplier5`: the tenth wait
of a run is between one second and one hour. -/
theorem delay_within_bounds_witness :
    ∃ n : Int, (waits (rangeFunc (Exponential.config Background [WithMultiplier (F64.ofInt 5)])
        (fun _ => true) 12).events)[9]? = some (some n) ∧ 1000000000 ≤ n
      ∧ n ≤ 3600000000000 := by
  have h := ((delay_within_bounds
    (Exponential.config Background [WithMultiplier (F64.ofInt 5)])
    (by decide) (by decide) (by decide) (by decide)).2 (by decide)).2 (fun _ => true) 12 9
    (some 3600000000000) (by decide)
  obtain ⟨n, hn, h1, h2⟩ := h
  exact ⟨n, by rw [← hn]; decide, h1, h2⟩

/-- Beyond 2^53: with min = max = 2^53 + 1 ns the first delay is the `float64` 2^53,
below min. -/
theorem delay_below_min_rounded :
    0 < equalRoundedConfig.min ∧ equalRoundedConfig.min ≤ equalRoundedConfig.max
      ∧ F64.le F64.one equalRoundedConfig.multiplier = true
      ∧ F64.toRat (delay equalRoundedConfig 0) = 2 ^ 53
      ∧ F64.toRat (delay equalRoundedConfig 0) < (equalRoundedConfig.min : ℚ) := by
  have h : delay equalRoundedConfig 0 = F64.fin false (2 ^ 52) 1 := by decide
  have hv : F64.toRat (delay equalRoundedConfig 0) = 2 ^ 53 := by
    rw [h, F64.toRat_pos]
    norm_num
  refine ⟨by decide, by decide, by decide, hv, ?_⟩
  rw [hv]
  simp only [equalRoundedConfig]
  norm_num

/-- C14, as stated, fails: with min = 2ns, max = 10ns and the multiplier 0.5
(min > 0, max ≥ min, multiplier > 0), the first wait is 2ns and the second
1ns. -/
theorem delay_never_decreases_counterexample :
    (0 < halvingConfig.min ∧ halvingConfig.min ≤ halvingConfig.max
        ∧ F64.lt (F64.ofInt 0) halvingConfig.multiplier = true)
      ∧ (waits (rangeFunc halvingConfig (fun _ => true) 3).events)[0]? = some (some 2)
      ∧ (waits (rangeFunc halvingConfig (fun _ => true) 3).events)[1]? = some (some 1)
      ∧ F64.lt (delay halvingConfig 1) (delay halvingConfig 0) = true := by
  decide

/-- C14, amended: for every configuration with 0 < min ≤ max (an `int64`, so
max < 2^63) and a multiplier of at least 1 (any `float64`, `+Inf` included),
the delay `s` never decreases from one iteration to the next, and in every run
each requested wait is at least the previous one, whenever the two conversions
`time.Duration(s)` are in the `int64` range; they all are when
`float64(max) < 2^63`. -/
theorem delay_never_decreases (o : options) (hmin : 0 < o.min) (hmax : o.min ≤ o.max)
    (h63 : o.max < 2 ^ 63) (hm : F64.le F64.one o.multiplier = true) :
    (∀ k, F64.le (delay o k) (delay o (k + 1)) = true
        ∧ F64.toRat (delay o k) ≤ F64.toRat (delay o (k + 1)))
      ∧ (∀ (yield : Nat → Bool) (fuel j : Nat) (n1 n2 : Int),
          (waits (rangeFunc o yield fuel).events)[j]? = some (some n1) →
          (waits (rangeFunc o yield fuel).events)[j + 1]? = some (some n2) → n1 ≤ n2)
      ∧ (F64.toRat (F64.ofInt o.max) < 2 ^ 63 →
          ∀ (yield : Nat → Bool) (fuel j : Nat) (d : Option Int),
            (waits (rangeFunc o yield fuel).events)[j]? = some d → ∃ n : Int, d = some n) := by
  refine ⟨?_, ?_, ?_⟩
  · intro k
    obtain ⟨q, t, q2, t2, hd, hd2, _, hv2, _⟩ := delay_bounds o hmin hmax h63 hm k
    rw [hd, hd2, F64.le_fin, decide_eq_true_eq, F64.toRat_pos, F64.toRat_pos]
    exact ⟨hv2, hv2⟩
  · intro yield fuel j n1 n2 h1 h2
    obtain ⟨q, t, q2, t2, hd, hd2, _, hv2, _⟩ := delay_bounds o hmin hmax h63 hm j
    have e1 := rangeFunc_waits_getElem o yield fuel j _ h1
    have e2 := rangeFunc_waits_getElem o yield fuel (j + 1) _ h2
    rw [hd] at e1
    rw [hd2] at e2
    rw [F64.toInt64_some q t n1 e1.symm, F64.toInt64_some q2 t2 n2 e2.symm]
    exact Int.floor_mono hv2
  · intro hlt yield fuel j d hd
    obtain ⟨q, t, q2, t2, hdel, _, _, hv2, hv3⟩ := delay_bounds o hmin hmax h63 hm j
    rw [rangeFunc_waits_getElem o yield fuel j d hd, hdel]
    exact ⟨_, F64.toInt64_pos q t (lt_of_le_of_lt (le_trans hv2 hv3) hlt)⟩

/-- C14, amended, at the multiplier 1.5 with min 1ns and max one hour: the second
wait is 1ns and the third 2ns. -/
theorem delay_never_decreases_witness :
    (waits (rangeFunc fractionalConfig (fun _ => true) 5).events)[1]? = some (some 1)
      ∧ (waits (rangeFunc fractionalConfig (fun _ => true) 5).events)[1 + 1]? = some (some 2)
      ∧ (1 : Int) ≤ 2 :=
  have h1 : (waits (rangeFunc fractionalConfig (fun _ => true) 5).events)[1]? = some (some 1) := by
    decide
  have h2 : (waits (rangeFunc fractionalConfig (fun _ => true) 5).events)[1 + 1]?
      = some (some 2) := by decide
  ⟨h1, h2, (delay_never_decreases fractionalConfig (by decide) (by decide) (by decide)
    (by decide)).2.1 (fun _ => true) 5 1 1 2 h1 h2⟩

/-- Beyond the `int64` range: with min = 2^62 ns, max = 2^63 - 1 ns and the
multiplier 2, the second delay is `float64(max)`, which is 2^63, and the
duration requested for the second wait is the result of an out-of-range
conversion. -/
theorem wait_out_of_range :
    F64.toRat (F64.ofInt hugeConfig.max) = 2 ^ 63
      ∧ waits (rangeFunc hugeConfig (fun _ => true) 2).events = [some (2 ^ 62), none] := by
  refine ⟨?_, by decide⟩
  have h : F64.ofInt hugeConfig.max = F64.fin false (2 ^ 52) 11 := by decide
  rw [h, F64.toRat_pos]
  norm_num

/-! ## Degenerate bounds -/

/-- Converting an integer of absolute value below `2^53` to `float64` and back gives
the integer. -/
theorem F64.toInt64_ofInt (n : Int) (h1 : -(2 ^ 53) < n) (h2 : n < 2 ^ 53) :
    F64.toInt64 (F64.ofInt n) = some n := by
  rcases lt_trichotomy n 0 with hneg | rfl | hpos
  · obtain ⟨a, ha⟩ : ∃ a : Nat, n = -(a : Int) := ⟨n.natAbs, by omega⟩
    have ha0 : 0 < a := by omega
    have ha53 : a < 2 ^ 53 := by
      have : (a : Int) < 2 ^ 53 := by omega
      exact_mod_cast this
    have hLa := log2floor_le a ha0 ha53
    have hd : decide (n < 0) = true := by simp [hneg]
    have habs : n.natAbs = a := by omega
    have hround := F64.round_nat_scaled true a 0 ha0 ha53
    simp only [pow_zero, Nat.mul_one, Nat.cast_zero, neg_zero] at hround
    have hdiv : a * 2 ^ (52 - log2floor a) / 2 ^ (52 - log2floor a) = a :=
      Nat.mul_div_cancel _ (by positivity)
    have ht : (if (0 : Int) ≤ (log2floor a : Int) - 52
          then a * 2 ^ (52 - log2floor a) * 2 ^ ((log2floor a : Int) - 52).toNat
          else a * 2 ^ (52 - log2floor a) / 2 ^ (-((log2floor a : Int) - 52)).toNat) = a := by
      by_cases h : (0 : Int) ≤ (log2floor a : Int) - 52
      · have hL : log2floor a = 52 := by omega
        rw [if_pos h, hL]
        simp
      · have h3 : (-((log2floor a : Int) - 52)).toNat = 52 - log2floor a := by omega
        rw [if_neg h, h3, hdiv]
    have hrange : -(2 : Int) ^ 63 ≤ -(a : Int) ∧ -(a : Int) < (2 : Int) ^ 63 := by
      have : (a : Int) < 2 ^ 53 := by exact_mod_cast ha53
      have : (2 : Int) ^ 53 < 2 ^ 63 := by norm_num
      constructor <;> omega
    rw [F64.ofInt, hd, habs, hround]
    simp only [F64.toInt64, if_true, ht, hrange, and_self]
    rw [ha]
  · decide
  · obtain ⟨a, ha⟩ := Int.eq_ofNat_of_zero_le (le_of_lt hpos)
    have ha0 : 0 < a := by rw [ha] at hpos; exact_mod_cast hpos
    have ha53 : a < 2 ^ 53 := by rw [ha] at h2; exact_mod_cast h2
    rw [ha, F64.ofInt_nat a ha0 ha53, F64.toInt64_nat a ha0 ha53]

/-- C17, as stated, fails: with min = max = 2^53 + 1 ns and terminate enabled,
the run produces the steps 0 and 1, but the single wait is requested for
2^53 ns, the `float64` of 2^53 + 1 converted back, not for max. -/
theorem equal_bounds_counterexample :
    equalRoundedConfig.min = equalRoundedConfig.max ∧ equalRoundedConfig.terminate = true
      ∧ rangeFunc equalRoundedConfig (fun _ => true) 5
          = ⟨[Event.step 0, Event.wait (some (2 ^ 53)), Event.step 1], true⟩
      ∧ waits (rangeFunc equalRoundedConfig (fun _ => true) 5).events
          ≠ [some equalRoundedConfig.max] := by
  decide

/-- C17, amended: for every configuration with min = max and terminate enabled,
whatever the multiplier, when the first wait is not cancelled and the loop body
continues at step 0, the run produces the steps 0 and 1 only and returns, with
a single wait between them, requested for `time.Duration(float64(max))`; that
duration is max itself when -2^53 < max < 2^53. -/
theorem equal_bounds_two_steps (o : options) (yield : Nat → Bool) (fuel : Nat)
    (heq : o.min = o.max) (hterm : o.terminate = true) (hc : o.ctx.done 0 = false)
    (hy : yield 0 = true) :
    rangeFunc o yield (fuel + 1)
        = ⟨[Event.step 0, Event.wait (F64.toInt64 (F64.ofInt o.max)), Event.step 1], true⟩
      ∧ steps (rangeFunc o yield (fuel + 1)).events = [0, 1]
      ∧ waits (rangeFunc o yield (fuel + 1)).events = [F64.toInt64 (F64.ofInt o.max)]
      ∧ (-(2 ^ 53) < o.max → o.max < 2 ^ 53 →
          waits (rangeFunc o yield (fuel + 1)).events = [some o.max]) := by
  have hrun : rangeFunc o yield (fuel + 1)
      = ⟨[Event.step 0, Event.wait (F64.toInt64 (F64.ofInt o.max)), Event.step 1], true⟩ := by
    unfold rangeFunc
    rw [rangeFunc.loop, heq]
    simp [hy, hc, hterm, F64.ofInt_eq_self]
  refine ⟨hrun, by rw [hrun]; rfl, by rw [hrun]; rfl, ?_⟩
  intro h1 h2
  rw [hrun, ← F64.toInt64_ofInt o.max h1 h2]
  rfl

/-- C17, amended, at min = max = 12 seconds with the multiplier 5. -/
theorem equal_bounds_two_steps_witness :
    steps (rangeFunc (Exponential.config Background
        [WithMin (12 * Second), WithMax (12 * Second), WithMultiplier (F64.ofInt 5),
          WithTerminate true]) (fun _ => true) (3 + 1)).events = [0, 1]
      ∧ waits (rangeFunc (Exponential.config Background
        [WithMin (12 * Second), WithMax (12 * Second), WithMultiplier (F64.ofInt 5),
          WithTerminate true]) (fun _ => true) (3 + 1)).events = [some 12000000000] :=
  have h := equal_bounds_two_steps (Exponential.config Background
        [WithMin (12 * Second), WithMax (12 * Second), WithMultiplier (F64.ofInt 5),
          WithTerminate true]) (fun _ => true) 3 rfl rfl rfl rfl
  ⟨h.2.1, h.2.2.2 (by decide) (by decide)⟩

/-- C19, as stated, fails: with the multiplier 1, min = 2^53 ns and
max = 2^53 + 1 ns (0 < min < max) and terminate enabled, `float64(min)` is
`float64(max)`: the ceiling is met at the first wait and the run returns after
the steps 0 and 1. -/
theorem unit_multiplier_counterexample :
    (0 < unitRoundedConfig.min ∧ unitRoundedConfig.min < unitRoundedConfig.max
        ∧ unitRoundedConfig.multiplier = F64.ofInt 1 ∧ unitRoundedConfig.terminate = true)
      ∧ atCeiling unitRoundedConfig 0 = true
      ∧ rangeFunc unitRoundedConfig (fun _ => true) 5
          = ⟨[Event.step 0, Event.wait (some (2 ^ 53)), Event.step 1], true⟩
      ∧ 2 ∉ steps (rangeFunc unitRoundedConfig (fun _ => true) 5).events := by
  decide

/-- C19, amended: for the multiplier 1 and 0 < min < max < 2^53 nanoseconds,
the delay never grows: in every iteration it is `float64(min)`, the test
`s == max` fails, and with no cancellation and a loop body that always
continues, whether terminate is enabled or not, the run never returns: within
any bound `fuel` it has produced the steps `0..fuel-1`, each followed by a wait
of min, so for every N the loop body is called with step N. -/
theorem unit_multiplier_never_ends (o : options) (yield : Nat → Bool) (N : Nat)
    (hmin : 0 < o.min) (hlt : o.min < o.max) (h53 : o.max < 2 ^ 53)
    (hmul : o.multiplier = F64.one) (hctx : ∀ k, o.ctx.done k = false)
    (hy : ∀ i, yield i = true) :
    (∀ k, delay o k = F64.ofInt o.min ∧ F64.toInt64 (delay o k) = some o.min
        ∧ F64.eq (delay o k) (F64.ofInt o.max) = false)
      ∧ (∀ fuel, (rangeFunc o yield fuel).returned = false
          ∧ steps (rangeFunc o yield fuel).events = List.range fuel
          ∧ waits (rangeFunc o yield fuel).events = List.replicate fuel (some o.min))
      ∧ N ∈ steps (rangeFunc o yield (N + 1)).events := by
  obtain ⟨a, b, ha, hb, ha0, hab, hb53⟩ := bounds_nat o hmin (le_of_lt hlt) h53
  have hab' : a < b := by rw [ha, hb] at hlt; exact_mod_cast hlt
  have ha53 : a < 2 ^ 53 := lt_of_le_of_lt hab hb53
  have hb0 : 0 < b := lt_of_lt_of_le ha0 hab
  have hone : F64.one = F64.ofInt ((1 : Nat) : Int) := by decide
  have hdel : ∀ k, delay o k = F64.nat a := by
    intro k
    rw [delay_nat o a b 1 ha0 hab (le_refl 1) hb53 (by norm_num) ha hb (by rw [hmul, hone]) k]
    simp [min_eq_left hab]
  have hk : ∀ k, delay o k = F64.ofInt o.min ∧ F64.toInt64 (delay o k) = some o.min
      ∧ F64.eq (delay o k) (F64.ofInt o.max) = false := by
    intro k
    rw [hdel k, ha, hb, F64.ofInt_nat a ha0 ha53, F64.ofInt_nat b hb0 hb53,
      F64.toInt64_nat a ha0 ha53, F64.eq_nat a b ha0 hb0 ha53 hb53]
    exact ⟨rfl, rfl, by simp [Nat.ne_of_lt hab']⟩
  have hrun : ∀ fuel, rangeFunc o yield fuel
      = ⟨prefixEvents o fuel 0 (F64.ofInt o.min), false⟩ := fun fuel =>
    rangeFunc_unbounded o yield fuel (fun j _ => hy j) (fun j _ => hctx j)
      (fun j _ => by simp [atCeiling, (hk j).2.2])
  have hsteps : ∀ fuel, steps (rangeFunc o yield fuel).events = List.range fuel := by
    intro fuel
    rw [hrun, steps_prefixEvents, List.range_eq_range']
  refine ⟨hk, fun fuel => ⟨by rw [hrun], hsteps fuel, ?_⟩, ?_⟩
  · rw [hrun, waits_prefixEvents]
    apply List.ext_getElem?
    intro j
    rcases Nat.lt_or_ge j fuel with hj | hj
    · rw [List.getElem?_map, List.getElem?_range hj, List.getElem?_replicate, if_pos hj]
      simp only [Option.map_some']
      exact congrArg some (hk j).2.1
    · rw [List.getElem?_eq_none (by simpa using hj),
        List.getElem?_eq_none (by simpa using hj)]
  · rw [hsteps, List.mem_range]
    exact Nat.lt_succ_self N

/-- C19, amended, at min 3s, max 12s, multiplier 1 and terminate enabled: step 50
is produced. -/
theorem unit_multiplier_never_ends_witness :
    50 ∈ steps (rangeFunc (Exponential.config Background
      [WithMin (3 * Second), WithMax (12 * Second), WithMultiplier F64.one, WithTerminate true])
      (fun _ => true) (50 + 1)).events :=
  (unit_multiplier_never_ends (Exponential.config Background
      [WithMin (3 * Second), WithMax (12 * Second), WithMultiplier F64.one, WithTerminate true])
    (fun _ => true) 50 (by decide) (by decide) (by decide) rfl (fun _ => rfl)
    (fun _ => rfl)).2.2

/-- C20, as stated, fails: with min = 2^53 + 1 ns above max = 2^53 ns, the
multiplier 2 and terminate enabled, `float64(min)` is `float64(max)`: the
first wait is requested for 2^53 ns, not for min, the ceiling is met at once
and the run returns after the steps 0 and 1, without a step 2. -/
theorem inverted_bounds_counterexample :
    (0 < invertedRoundedConfig.max ∧ invertedRoundedConfig.max < invertedRoundedConfig.min
        ∧ F64.le F64.one invertedRoundedConfig.multiplier = true
        ∧ invertedRoundedConfig.terminate = true)
      ∧ rangeFunc invertedRoundedConfig (fun _ => true) 5
          = ⟨[Event.step 0, Event.wait (some (2 ^ 53)), Event.step 1], true⟩
      ∧ (waits (rangeFunc invertedRoundedConfig (fun _ => true) 5).events)[0]?
          ≠ some (some invertedRoundedConfig.min)
      ∧ steps (rangeFunc invertedRoundedConfig (fun _ => true) 5).events ≠ [0, 1, 2] := by
  decide

/-- C20, amended: for every configuration with 0 < max < min < 2^53
nanoseconds and a multiplier of at least 1 (any `float64`, `+Inf` included),
the first delay is min, above the ceiling, and every later delay is max: in
every run the first wait is requested for min and every later wait for max;
with terminate enabled, no cancellation and a loop body that always continues,
the run produces exactly the steps 0, 1, 2 and returns. -/
theorem inverted_bounds (o : options) (hmax : 0 < o.max) (hlt : o.max < o.min)
    (h53 : o.min < 2 ^ 53) (hm : F64.le F64.one o.multiplier = true) :
    (delay o 0 = F64.ofInt o.min ∧ F64.toInt64 (delay o 0) = some o.min)
      ∧ (∀ k, 1 ≤ k → delay o k = F64.ofInt o.max ∧ F64.toInt64 (delay o k) = some o.max)
      ∧ (∀ (yield : Nat → Bool) (fuel j : Nat) (d : Option Int),
          (waits (rangeFunc o yield fuel).events)[j]? = some d →
          d = if j = 0 then some o.min else some o.max)
      ∧ (∀ (yield : Nat → Bool) (fuel : Nat), o.terminate = true →
          (∀ k, o.ctx.done k = false) → (∀ i, yield i = true) →
          rangeFunc o yield (fuel + 2)
            = ⟨[Event.step 0, Event.wait (some o.min), Event.step 1, Event.wait (some o.max),
                Event.step 2], true⟩) := by
  obtain ⟨b, a, hb, ha, hb0, hba, ha53⟩ := bounds_nat ⟨o.max, o.min, o.multiplier, o.terminate,
    o.ctx⟩ hmax (le_of_lt hlt) h53
  simp only at hb ha
  have hba' : b < a := by rw [ha, hb] at hlt; exact_mod_cast hlt
  have ha0 : 0 < a := lt_of_lt_of_le hb0 hba
  have hb53 : b < 2 ^ 53 := lt_of_le_of_lt hba ha53
  have hLb := log2floor_le b hb0 hb53
  have hmin53 : -(2 ^ 53) < o.min := by omega
  have hmax53 : -(2 ^ 53) < o.max ∧ o.max < 2 ^ 53 := by omega
  have hd0 : delay o 0 = F64.ofInt o.min := rfl
  have hBq : b * 2 ^ (52 - log2floor b) < 2 ^ 53 := by
    rcases F64.nat_mantissa_lt b hb0 with h | h
    · exact h
    · omega
  have hle : F64.le (F64.ofInt o.max) (F64.mul (F64.ofInt o.min) o.multiplier) = true := by
    have hAv := F64.toRat_nat a ha0 ha53
    have hBv := F64.toRat_nat b hb0 hb53
    rw [F64.nat, F64.toRat_pos] at hAv hBv
    rw [ha, hb, F64.ofInt_nat a ha0 ha53, F64.ofInt_nat b hb0 hb53]
    rcases F64.mul_ge (a * 2 ^ (52 - log2floor a)) ((log2floor a : Int) - 52)
        (b * 2 ^ (52 - log2floor b)) ((log2floor b : Int) - 52) o.multiplier (by positivity) hBq
        (by omega) (by rw [hAv, hBv]; exact_mod_cast hba) hm with h | ⟨q2, t2, h, _, _, hv⟩
    · rw [F64.nat, F64.nat, h]; simp [F64.le, F64.lt]
    · rw [F64.nat, F64.nat, h]
      simp only [F64.le, F64.lt_fin, F64.eq_fin, F64.toRat_pos, Bool.or_eq_true,
        decide_eq_true_eq]
      exact lt_or_eq_of_le hv
  have hd1 : delay o 1 = F64.ofInt o.max := advance_of_ge o hmax _ hle
  have hdk : ∀ k, 1 ≤ k → delay o k = F64.ofInt o.max := by
    intro k hk
    rcases Nat.eq_or_lt_of_le hk with h | h
    · rw [← h]; exact hd1
    · exact delay_absorbed o hmax hm 1 (by rw [hd1]; exact F64.ofInt_eq_self _) k h
  have hwmin : F64.toInt64 (F64.ofInt o.min) = some o.min :=
    F64.toInt64_ofInt o.min hmin53 h53
  have hwmax : F64.toInt64 (F64.ofInt o.max) = some o.max :=
    F64.toInt64_ofInt o.max hmax53.1 hmax53.2
  refine ⟨⟨hd0, by rw [hd0]; exact hwmin⟩, fun k hk => ⟨hdk k hk, by rw [hdk k hk]; exact hwmax⟩,
    ?_, ?_⟩
  · intro yield fuel j d hd
    rw [rangeFunc_waits_getElem o yield fuel j d hd]
    rcases Nat.eq_zero_or_pos j with h | h
    · rw [h, hd0, if_pos rfl]; exact hwmin
    · rw [hdk j h, if_neg (Nat.ne_of_gt h)]; exact hwmax
  · intro yield fuel hterm hctx hy
    have h0 : atCeiling o 0 = false := by
      have : F64.eq (F64.ofInt o.min) (F64.ofInt o.max) = false := by
        rw [ha, hb, F64.ofInt_nat a ha0 ha53, F64.ofInt_nat b hb0 hb53,
          F64.eq_nat a b ha0 hb0 ha53 hb53]
        simp [Nat.ne_of_gt hba']
      simp [atCeiling, hd0, this]
    have h1 : atCeiling o 1 = true := by
      simp [atCeiling, hd1, F64.ofInt_eq_self, hterm]
    have hrun := rangeFunc_ceiling o yield 1 (fuel + 2) (fun j _ => hy j) (fun j _ => hctx j)
      (fun j hj => by rw [Nat.lt_one_iff.mp hj]; exact h0) h1 (by omega)
    rw [hrun, hd1, hwmax]
    simp only [prefixEvents, hwmin, List.cons_append, List.nil_append]

/-- C20, amended, at min 12s above max 3s with the default multiplier and
terminate: the waits are 12s, then 3s, and the steps 0, 1, 2. -/
theorem inverted_bounds_witness :
    rangeFunc (Exponential.config Background
        [WithMin (12 * Second), WithMax (3 * Second), WithTerminate true]) (fun _ => true) (4 + 2)
      = ⟨[Event.step 0, Event.wait (some (Exponential.config Background
            [WithMin (12 * Second), WithMax (3 * Second), WithTerminate true]).min),
          Event.step 1, Event.wait (some (Exponential.config Background
            [WithMin (12 * Second), WithMax (3 * Second), WithTerminate true]).max),
          Event.step 2], true⟩ :=
  (inverted_bounds (Exponential.config Background
      [WithMin (12 * Second), WithMax (3 * Second), WithTerminate true])
    (by decide) (by decide) (by decide) (by decide)).2.2.2 (fun _ => true) 4 rfl (fun _ => rfl)
    (fun _ => rfl)

end backoff
